import Mathlib

/-!
Verification of the fragment identification and combinatorial assembly engine
of the fragmenter package (fragmenter/fragment.py), via a shallow embedding.

Conventions of the embedding:
* Atoms are identified by their stable integer index (0 .. natoms-1); bonds by
  their position in the bond list (the OpenEye bond index).
* Chemistry attributes computed by the external perception collaborator
  (rotor flags, Wiberg bond orders, the ring-system partition returned by
  OEDetermineRingSystems, and the SMARTS matcher results) are carried as data
  on the molecule, exactly as the spec's section 6 describes the external
  interface.
* A bond's WibergBondOrder is a rational number; a missing data entry is
  modelled as Option.none.  Real-valued weights are modelled by rationals,
  which is faithful for every comparison the code performs.
* Python sets of indices are Finsets.  Where the code iterates a Python set,
  the embedding iterates its elements in ascending order; where the code
  iterates neighbor atoms of an atom, the embedding iterates incident bonds
  in bond-index order.
* The pair of mutable Python sets (atoms_2, bonds_2) threaded through
  iterate_nbratoms is modelled by an explicit store (a heap of set objects
  addressed by allocation index), because the source mutates shared objects
  with set.add but rebinds the local names with set.union, and discards the
  return value of the recursive call: only mutations of still-shared objects
  propagate to the caller.  The store model reproduces exactly that.
* Recursion in iterate_nbratoms and TraverseFragments is not structural; it
  is modelled with a fuel parameter, with Option.none meaning fuel ran out
  (the source relies on finiteness of the molecule for termination).
-/

namespace Fragmenter

/-- One bond of the molecular graph: endpoint atom indices, the rotor flag
computed by external perception (bond.IsRotor()), and the externally supplied
WibergBondOrder data (none when the data entry is absent). -/
structure Bond where
  bgn : ℕ
  ed : ℕ
  isRotor : Bool
  wbo : Option ℚ
deriving DecidableEq

/-- The molecular graph together with the externally perceived structure the
core consumes: number of atoms, indexed bond list, the ring-system partition
(OEDetermineRingSystems: parts a = 0 means atom a is in no ring, otherwise
the 1-based ring-system id) with the number of ring systems, and the list of
substructure-pattern matches (group name, match atoms, match bonds) produced
by the external SMARTS matcher in pattern/match order. -/
structure Mol where
  natoms : ℕ
  bonds : List Bond
  parts : ℕ → ℕ
  nring : ℕ
  fgMatches : List (String × Finset ℕ × Finset ℕ)

/-- Bond at a given index (the source always indexes in range). -/
def bondAt (mol : Mol) (i : ℕ) : Bond :=
  (mol.bonds.get? i).getD ⟨0, 0, false, none⟩

/-- Neighbor list of an atom: pairs of (neighbor atom index, connecting bond
index), enumerated in bond-index order (atom.GetAtoms / atom.GetBonds). -/
def nbrs (mol : Mol) (a : ℕ) : List (ℕ × ℕ) :=
  mol.bonds.enum.filterMap fun p =>
    if p.2.bgn = a then some (p.2.ed, p.1)
    else if p.2.ed = a then some (p.2.bgn, p.1) else none

/-- Degree of an atom (atom.GetDegree): number of incident bonds. -/
def degree (mol : Mol) (a : ℕ) : ℕ :=
  (nbrs mol a).length

/-- Index of the molecular bond between two atoms, if any
(atomA.GetBond(atomB) / mol.GetBond(a, atom)). -/
def getBond (mol : Mol) (x y : ℕ) : Option ℕ :=
  (mol.bonds.enum.find? fun p =>
    (p.2.bgn = x ∧ p.2.ed = y) ∨ (p.2.bgn = y ∧ p.2.ed = x)).map (·.1)

/-- Atom ring membership (atom.IsInRing), consistent with the ring partition. -/
def atomInRing (mol : Mol) (a : ℕ) : Bool :=
  mol.parts a ≠ 0

/-- Bond ring membership (bond.IsInRing): both endpoints lie in the same
ring system.  A bond directly connecting two atoms of one ring system closes
a cycle, hence is a ring bond. -/
def bondInRing (mol : Mol) (b : Bond) : Bool :=
  mol.parts b.bgn ≠ 0 ∧ mol.parts b.bgn = mol.parts b.ed

/-- Value of a bond's Wiberg bond order as read by the code
(bond.GetData('WibergBondOrder')).  The embedding is only ever applied where
the source would find the data present; a missing entry defaults to 0. -/
def wboV (b : Bond) : ℚ :=
  b.wbo.getD 0

/-- The conjugation threshold 1.2 used throughout the source. -/
def thr : ℚ :=
  mkRat 6 5

/-- A fragment (OEAtomBondSet restricted to this molecule): a set of atom
indices and a set of bond indices. -/
def Frag : Type :=
  Finset ℕ × Finset ℕ

instance : DecidableEq Frag :=
  inferInstanceAs (DecidableEq (Finset ℕ × Finset ℕ))

/-- Python range(a, b). -/
def pyRange (a b : ℕ) : List ℕ :=
  (List.range (b - a)).map (a + ·)

/-- Elements of a finite set of indices below a bound, in ascending order
(the embedding's fixed iteration order for Python sets; every set the
source iterates holds only indices below the respective atom or bond
count). -/
def elemsB (bound : ℕ) (s : Finset ℕ) : List ℕ :=
  (List.range bound).filter (· ∈ s)

/-! ## Structural Tagger (fragment.py lines 313-487)

The source attaches 'ringsystem' and 'fgroup' data entries to atoms and
bonds (SetData / GetData).  The embedding threads that mutable data state
explicitly, so that re-running the tagger on an already tagged molecule is
a meaningful operation. -/

/-- The data tags the tagger writes on the molecule: per-atom and per-bond
'ringsystem' and 'fgroup' entries (none = data absent). -/
structure TagState where
  aRing : ℕ → Option ℕ
  aFg : ℕ → Option String
  bRing : ℕ → Option ℕ
  bFg : ℕ → Option String

/-- A molecule fresh from perception carries no tagger data. -/
def initTags : TagState :=
  ⟨fun _ => none, fun _ => none, fun _ => none, fun _ => none⟩

/-- SetData('ringsystem', v) on an atom. -/
def setARing (st : TagState) (a v : ℕ) : TagState :=
  { st with aRing := fun x => if x = a then some v else st.aRing x }

/-- SetData('fgroup', v) on an atom. -/
def setAFg (st : TagState) (a : ℕ) (v : String) : TagState :=
  { st with aFg := fun x => if x = a then some v else st.aFg x }

/-- SetData('ringsystem', v) on a bond. -/
def setBRing (st : TagState) (b v : ℕ) : TagState :=
  { st with bRing := fun x => if x = b then some v else st.bRing x }

/-- SetData('fgroup', v) on a bond. -/
def setBFg (st : TagState) (b : ℕ) (v : String) : TagState :=
  { st with bFg := fun x => if x = b then some v else st.bFg x }

/-- The functional-group map: an insertion-ordered dictionary from group
name to (atom set, bond set). -/
def FgMap : Type :=
  List (String × Finset ℕ × Finset ℕ)

/-- The ring-system map: 1-based ring-system id to (atom set, bond set). -/
def RingMap : Type :=
  List (ℕ × Finset ℕ × Finset ℕ)

/-- Dictionary read with the (never hit in consistent use) empty default. -/
def getA (m : FgMap) (k : String) : Finset ℕ × Finset ℕ :=
  ((m.find? fun p => p.1 = k).map (·.2)).getD (∅, ∅)

/-- Dictionary write at an existing key. -/
def setA (m : FgMap) (k : String) (v : Finset ℕ × Finset ℕ) : FgMap :=
  m.map fun p => if p.1 = k then (k, v) else p

/-- Dictionary read in the ring map. -/
def getR (m : RingMap) (k : ℕ) : Finset ℕ × Finset ℕ :=
  ((m.find? fun p => p.1 = k).map (·.2)).getD (∅, ∅)

/-- _tag_fgroups: every SMARTS match becomes a tagged group; the atoms and
bonds of each match receive the group name as their 'fgroup' data (later
matches overwrite earlier tags on shared atoms/bonds, as SetData does).  The
returned map is the matcher output in pattern/match order. -/
def _tag_fgroupsS (mol : Mol) (st : TagState) : TagState × FgMap :=
  (mol.fgMatches.foldl
    (fun st m =>
      let st := (elemsB mol.natoms m.2.1).foldl (fun st a => setAFg st a m.1) st
      (elemsB mol.bonds.length m.2.2).foldl (fun st b => setBFg st b m.1) st)
    st,
   mol.fgMatches)

/-- Atom set of ring system s: the atoms the external ring perception put in
partition s (_tag_rings' filter of parts). -/
def ringAtomsF (mol : Mol) (s : ℕ) : Finset ℕ :=
  (Finset.range mol.natoms).filter fun a => mol.parts a = s

/-- Bond set of ring system s: bonds both of whose (distinct) endpoints lie
in partition s, as collected by _tag_rings' neighbor scan. -/
def ringBondsF (mol : Mol) (s : ℕ) : Finset ℕ :=
  (Finset.range mol.bonds.length).filter fun i =>
    (bondAt mol i).bgn ∈ ringAtomsF mol s ∧ (bondAt mol i).ed ∈ ringAtomsF mol s ∧
      (bondAt mol i).bgn ≠ (bondAt mol i).ed

/-- _tag_rings: for each ring system id 1..nringsystems, tag its atoms and
bonds with the id and record the (atom set, bond set) pair under the id. -/
def _tag_ringsS (mol : Mol) (st : TagState) : TagState × RingMap :=
  ((pyRange 1 (mol.nring + 1)).foldl
    (fun st ridx =>
      let st := (elemsB mol.natoms (ringAtomsF mol ridx)).foldl (fun st a => setARing st a ridx) st
      (elemsB mol.bonds.length (ringBondsF mol ridx)).foldl (fun st b => setBRing st b ridx) st)
    st,
   (pyRange 1 (mol.nring + 1)).map fun ridx => (ridx, ringAtomsF mol ridx, ringBondsF mol ridx))

/-- itertools.combinations(xs, 2) as a pair list, in source order. -/
def pairsPy {α : Type} : List α → List (α × α)
  | [] => []
  | x :: xs => (xs.map fun y => (x, y)) ++ pairsPy xs

/-- One step of the overlapping-functional-group merge: if the two groups'
atom sets share more than one atom, both names are remapped to the union of
their atom sets and the union of their bond sets. -/
def fgMergeStep (m : FgMap) (p : String × String) : FgMap :=
  if 1 < ((getA m p.1).1 ∩ (getA m p.2).1).card then
    setA (setA m p.1 ((getA m p.1).1 ∪ (getA m p.2).1, (getA m p.1).2 ∪ (getA m p.2).2)) p.2
      ((getA m p.1).1 ∪ (getA m p.2).1, (getA m p.1).2 ∪ (getA m p.2).2)
  else m

/-- One (ring idx, fgroup) reconciliation step of _ring_fgroup_union: a
multi-atom overlap absorbs the ring into the group; a single-atom overlap
absorbs the ring when the connecting bond's Wiberg order exceeds the
threshold, and (independently) when the connecting bond is not a rotor. -/
def ringFgStep (mol : Mol) (rm : RingMap) (idx : ℕ) (m : FgMap) (fg : String) : FgMap :=
  let ring := getR rm idx
  let inter := ring.1 ∩ (getA m fg).1
  if 1 < inter.card then
    setA m fg (ring.1 ∪ (getA m fg).1, ring.2 ∪ (getA m fg).2)
  else if 0 < inter.card then
    let atomIdx := (elemsB mol.natoms inter).headD 0
    (nbrs mol atomIdx).foldl
      (fun m nb =>
        if nb.1 ∈ (getA m fg).1 then
          let bond := bondAt mol nb.2
          let m :=
            if wboV bond > thr then
              setA m fg (ring.1 ∪ (getA m fg).1, ring.2 ∪ (getA m fg).2)
            else m
          if ¬ bond.isRotor then
            setA m fg (ring.1 ∪ (getA m fg).1, ring.2 ∪ (getA m fg).2)
          else m
        else m)
      m
  else m

/-- _ring_fgroup_union: first merge overlapping functional groups pairwise,
then absorb conjugated or inseparable rings into functional groups.  Only
the functional-group map is produced; the ring map is read, never written. -/
def _ring_fgroup_union (mol : Mol) (tagged_rings : RingMap) (tagged_fgroups : FgMap) : FgMap :=
  let m1 := (pairsPy (tagged_fgroups.map (·.1))).foldl fgMergeStep tagged_fgroups
  (tagged_rings.map (·.1)).foldl
    (fun m idx => (tagged_fgroups.map (·.1)).foldl (ringFgStep mol tagged_rings idx) m)
    m1

/-- tag_molecule with the molecule's mutable data state made explicit: tag
functional groups, tag rings, then reconcile.  Returns the updated data
state, the ring-system map and the reconciled functional-group map. -/
def tag_moleculeS (mol : Mol) (st : TagState) : TagState × RingMap × FgMap :=
  let r1 := _tag_fgroupsS mol st
  let r2 := _tag_ringsS mol r1.1
  (r2.1, r2.2, _ring_fgroup_union mol r2.2 r1.2)

/-! ## Fragment Grower (fragment.py lines 534-775)

The source grows two mutable Python sets atoms_2 and bonds_2.  Their
aliasing behaviour matters: set.add mutates the object in place (visible to
every frame holding it), set.union rebinds the local name to a fresh object
(invisible to the caller), and the recursive call's return value is
discarded, so a callee's effect on its caller is exactly the adds it
performs on objects the caller still holds.  The embedding therefore uses a
store of set objects addressed by allocation index; each frame keeps the
addresses its two names currently denote. -/

/-- Read a set object from the store. -/
def hget (h : List (Finset ℕ)) (n : ℕ) : Finset ℕ :=
  h.getD n ∅

/-- set.add: mutate the object at address n in place. -/
def hins (h : List (Finset ℕ)) (n x : ℕ) : List (Finset ℕ) :=
  h.set n (insert x (hget h n))

/-- name = name.union(s): allocate a fresh object holding the union and
return its address; the old object is left untouched. -/
def hunion (h : List (Finset ℕ)) (n : ℕ) (s : Finset ℕ) : List (Finset ℕ) × ℕ :=
  (h ++ [hget h n ∪ s], h.length)

/-- Context handed to the grower: the molecule, the data tags written by the
tagger, and the two tag maps. -/
structure GrowCtx where
  mol : Mol
  tags : TagState
  tagged_rings : RingMap
  fgroup_tagged : FgMap

/-- _is_fgroup: the atom's 'fgroup' data entry looked up in the tagged
functional-group map; none when the atom carries no tag. -/
def _is_fgroup (ctx : GrowCtx) (a : ℕ) : Option (Finset ℕ × Finset ℕ) :=
  (ctx.tags.aFg a).bind fun g => (ctx.fgroup_tagged.find? fun p => p.1 = g).map (·.2)

/-- Bond indices attached to either endpoint of a bond (the union the
source collects from GetBgn().GetBonds() and GetEnd().GetBonds()). -/
def attachedBonds (mol : Mol) (bIdx : ℕ) : Finset ℕ :=
  (((nbrs mol (bondAt mol bIdx).bgn).map (·.2)) ++
    ((nbrs mol (bondAt mol bIdx).ed).map (·.2))).toFinset

/-- _is_ortho: the candidate bond shares an attached bond with the rotor
bond, or - when the connecting bond is not a ring bond - with the
connecting bond. -/
def _is_ortho (mol : Mol) (bIdx rotIdx nextIdx : ℕ) : Bool :=
  decide ((attachedBonds mol bIdx ∩ attachedBonds mol rotIdx).Nonempty) ||
    (!(bondInRing mol (bondAt mol nextIdx)) &&
      decide ((attachedBonds mol bIdx ∩ attachedBonds mol nextIdx).Nonempty))

/-- One neighbor step of _ring_substiuents: keep a non-ring substituent when
its bond is not a rotor or is ortho to the rotor bond (then also absorb its
functional group); absorb a different ring system whole when its connecting
bond is ortho. -/
def rsStep (ctx : GrowCtx) (bIdx rotIdx ringIdx : ℕ) (st : Finset ℕ × Finset ℕ)
    (nb : ℕ × ℕ) : Finset ℕ × Finset ℕ :=
  if nb.1 ∈ st.1 then st
  else if ¬ atomInRing ctx.mol nb.1 then
    if ¬ (bondAt ctx.mol nb.2).isRotor ∨ _is_ortho ctx.mol nb.2 rotIdx bIdx then
      match _is_fgroup ctx nb.1 with
      | some fg => (insert nb.1 st.1 ∪ fg.1, insert nb.2 st.2 ∪ fg.2)
      | none => (insert nb.1 st.1, insert nb.2 st.2)
    else st
  else
    if (ctx.tags.aRing nb.1).getD 0 ≠ ringIdx ∧ _is_ortho ctx.mol nb.2 rotIdx bIdx then
      (st.1 ∪ (getR ctx.tagged_rings ((ctx.tags.aRing nb.1).getD 0)).1,
        insert nb.2 (st.2 ∪ (getR ctx.tagged_rings ((ctx.tags.aRing nb.1).getD 0)).2))
    else st

/-- _ring_substiuents: scan every atom of the given ring system (set
iteration, ascending in the embedding) and collect the substituents that
must not be cut off. -/
def _ring_substiuents (ctx : GrowCtx) (bIdx rotIdx ringIdx : ℕ) : Finset ℕ × Finset ℕ :=
  let r := getR ctx.tagged_rings ringIdx
  (elemsB ctx.mol.natoms r.1).foldl
    (fun st aIdx => (nbrs ctx.mol aIdx).foldl (rsStep ctx bIdx rotIdx ringIdx) st)
    (∅, ∅)

/-- State of one iterate_nbratoms frame: the store, the addresses the names
atoms_2 and bonds_2 currently denote, and the frame's i counter. -/
structure GrowSt where
  heap : List (Finset ℕ)
  aA : ℕ
  bA : ℕ
  i : ℕ

/-- Resolution of the FGROUP_RING branch: the source reads 'ringsystem' then
'fgroup' on the neighbor atom; on a ValueError it retries both reads on the
central atom; a second failure means continue.  Returns the ring id used
when both reads of one atom succeed. -/
def fgroupRingOf (ctx : GrowCtx) (a atomIdx : ℕ) : Option ℕ :=
  match ctx.tags.aRing a, ctx.tags.aFg a with
  | some r, some _ => some r
  | _, _ =>
    match ctx.tags.aRing atomIdx, ctx.tags.aFg atomIdx with
    | some r, some _ => some r
    | _, _ => none

/-- One bond of the conjugated-chain scan over the neighbors of atom a: a
further bond above the threshold, not a ring bond and not yet collected,
whose endpoints both have degree above one, is added (atom and bond) and
recursively expanded with i incremented; the recursive call's return value
is discarded, so only its store effects survive. -/
def nnStep (ctx : GrowCtx) (rec : ℕ → ℕ → GrowSt → Option GrowSt) (a : ℕ)
    (st : GrowSt) (nb : ℕ × ℕ) : Option GrowSt :=
  let nnBond := bondAt ctx.mol nb.2
  if wboV nnBond > thr ∧ ¬ bondInRing ctx.mol nnBond ∧ nb.2 ∉ hget st.heap st.bA then
    if degree ctx.mol a = 1 ∨ degree ctx.mol nb.1 = 1 then some st
    else
      let h := hins st.heap st.aA nb.1
      let h := hins h st.bA nb.2
      let st1 : GrowSt := ⟨h, st.aA, st.bA, st.i + 1⟩
      match rec nb.2 nb.1 st1 with
      | none => none
      | some st2 => some ⟨st2.heap, st1.aA, st1.bA, st1.i⟩
  else some st

/-- The ring absorption block the source runs both in the FGROUP_RING
branch and after adding a bond to a ring atom: union the tagged ring's atom
and bond sets into atoms_2 and bonds_2 (rebinding both names to fresh
objects), then likewise union the ring substituents that must be kept. -/
def absorbRing (ctx : GrowCtx) (nbBond rotorIdx ringIdx : ℕ) (st : GrowSt) : GrowSt :=
  let rr := getR ctx.tagged_rings ringIdx
  let p1 := hunion st.heap st.aA rr.1
  let p2 := hunion p1.1 st.bA rr.2
  let rs := _ring_substiuents ctx nbBond rotorIdx ringIdx
  let p3 := hunion p2.1 p1.2 rs.1
  let p4 := hunion p3.1 p2.2 rs.2
  ⟨p4.1, p3.2, p4.2, st.i⟩

/-- Processing of one neighbor atom in _iterate_nbratoms: skip the pair
atom; add the neighbor to atoms_2; when the connecting bond is already
collected, run the FGROUP_RING absorption (or continue); otherwise apply
the depth-gated Wiberg cutoff, add the bond, absorb the neighbor's ring
with its substituents and its functional group, and run the
conjugated-chain scan. -/
def nbrStep (ctx : GrowCtx) (rec : ℕ → ℕ → GrowSt → Option GrowSt)
    (rotorIdx atomIdx pairIdx : ℕ) (st : GrowSt) (nb : ℕ × ℕ) : Option GrowSt :=
  if nb.1 = pairIdx then some st
  else
    let st : GrowSt := ⟨hins st.heap st.aA nb.1, st.aA, st.bA, st.i⟩
    if nb.2 ∈ hget st.heap st.bA then
      match fgroupRingOf ctx nb.1 atomIdx with
      | none => some st
      | some ringIdx => some (absorbRing ctx nb.2 rotorIdx ringIdx st)
    else if st.i > 0 ∧ wboV (bondAt ctx.mol nb.2) < thr then some st
    else
      let st : GrowSt := ⟨hins st.heap st.bA nb.2, st.aA, st.bA, st.i⟩
      let st : GrowSt :=
        if atomInRing ctx.mol nb.1 then
          absorbRing ctx nb.2 rotorIdx ((ctx.tags.aRing nb.1).getD 0) st
        else st
      let st : GrowSt :=
        match _is_fgroup ctx nb.1 with
        | some fg =>
          let p1 := hunion st.heap st.aA fg.1
          let p2 := hunion p1.1 st.bA fg.2
          ⟨p2.1, p1.2, p2.2, st.i⟩
        | none => st
      (nbrs ctx.mol nb.1).foldlM (nnStep ctx rec nb.1) st

/-- The recursive worker _iterate_nbratoms: fold the neighbor processing
over the neighbors of the central atom.  Fuel bounds the recursion depth of
the conjugated-chain expansion; none means the fuel ran out. -/
def iterGo (ctx : GrowCtx) (fuel : ℕ) (rotorIdx atomIdx pairIdx : ℕ) (st : GrowSt) :
    Option GrowSt :=
  match fuel with
  | 0 => none
  | fuel + 1 =>
    (nbrs ctx.mol atomIdx).foldlM
      (nbrStep ctx (fun r a st => iterGo ctx fuel r a pairIdx st) rotorIdx atomIdx pairIdx) st

/-- iterate_nbratoms: run the worker on two freshly allocated empty sets and
read the sets the frame's names finally denote. -/
def iterate_nbratoms (ctx : GrowCtx) (fuel rotorIdx atomIdx pairIdx : ℕ) :
    Option (Finset ℕ × Finset ℕ) :=
  (iterGo ctx fuel rotorIdx atomIdx pairIdx ⟨[∅, ∅], 0, 1, 0⟩).map fun st =>
    (hget st.heap st.aA, hget st.heap st.bA)

/-- _build_frag: seed with the rotor bond and its endpoints, then union the
two independent endpoint traversals. -/
def _build_frag (ctx : GrowCtx) (fuel bIdx : ℕ) : Option (Finset ℕ × Finset ℕ) :=
  let b := bondAt ctx.mol bIdx
  match iterate_nbratoms ctx fuel bIdx b.bgn b.ed, iterate_nbratoms ctx fuel bIdx b.ed b.bgn with
  | some r1, some r2 => some (insert b.bgn r1.1 ∪ insert b.ed r2.1, insert bIdx (r1.2 ∪ r2.2))
  | _, _ => none

/-! ## Fragment generation driver (fragment.py lines 177-310) -/

/-- Result of _generate_fragments for one molecule: the False return when
the Wiberg data check fails, fuel exhaustion of the embedding, or the map
from rotatable-bond index to its built fragment. -/
inductive GenResult where
  | cannotFragment : GenResult
  | fuelOut : GenResult
  | frags : List (ℕ × Finset ℕ × Finset ℕ) → GenResult
deriving DecidableEq

/-- The Wiberg-order prescan of _generate_fragments: only bonds[:1] - the
first bond, when present - is tested for the WibergBondOrder data entry. -/
def wboPrescan (mol : Mol) : Bool :=
  (mol.bonds.take 1).all (·.wbo.isSome)

/-- Grower context as _generate_fragments builds it: tag a fresh molecule
and hand the written tags and both maps to the grower. -/
def growCtxOf (mol : Mol) : GrowCtx :=
  let r := tag_moleculeS mol initTags
  ⟨mol, r.1, r.2.1, r.2.2⟩

/-- Indices of the bonds whose rotor flag is set, in bond order (the
iteration of _generate_fragments over charged.GetBonds()). -/
def rotorIdxsOf (mol : Mol) : List ℕ :=
  (mol.bonds.enum.filter (·.2.isRotor)).map (·.1)

/-- _generate_fragments: return cannot-fragment when the prescan fails,
otherwise build one fragment per bond whose rotor flag is set, keyed by the
bond index, in bond order. -/
def _generate_fragments (fuel : ℕ) (mol : Mol) : GenResult :=
  if ¬ wboPrescan mol then GenResult.cannotFragment
  else
    match (rotorIdxsOf mol).mapM
        (fun i => (_build_frag (growCtxOf mol) fuel i).map fun f => (i, f)) with
    | none => GenResult.fuelOut
    | some l => GenResult.frags l

/-- Number of positional parameters of frag_to_smiles (frags, mol,
OESMILESFlag) and how many of them carry defaults: line 778 declares three
parameters, none defaulted. -/
def frag_to_smiles_nparams : ℕ :=
  3

/-- Count of defaulted parameters of frag_to_smiles. -/
def frag_to_smiles_ndefaults : ℕ :=
  0

/-- Python call semantics: a call raises TypeError when it passes fewer
arguments than the non-defaulted parameter count, or more than the
parameter count. -/
def pyCallTypeErrors (nparams ndefaults nargs : ℕ) : Bool :=
  decide (nargs < nparams - ndefaults) || decide (nparams < nargs)

/-- Per-molecule outcome of the generate_fragments loop body. -/
inductive MolOutcome where
  | skipped : MolOutcome
  | typeErrorRaised : MolOutcome
  | fuelOut : MolOutcome
  | ok : List (Finset ℕ × Finset ℕ) → MolOutcome
deriving DecidableEq

/-! ## Combinatorial Assembler (fragment.py lines 1134-1250) -/

/-- itertools.combinations(xs, n): all length-n subsequences of xs, emitted
in lexicographic order of positions. -/
def combosPy : ℕ → List Frag → List (List Frag)
  | 0, _ => [[]]
  | _ + 1, [] => []
  | n + 1, x :: xs => (combosPy n xs).map (x :: ·) ++ combosPy (n + 1) xs

/-- IsAdjacentAtomBondSets: some atom of fragA is directly bonded in the
molecule to some atom of fragB. -/
def IsAdjacentAtomBondSets (mol : Mol) (fragA fragB : Frag) : Bool :=
  decide (∃ x ∈ fragA.1, ∃ y ∈ fragB.1, (getBond mol x y).isSome = true)

/-- CountRotorsInFragment: number of bonds of the fragment whose rotor flag
is set. -/
def CountRotorsInFragment (mol : Mol) (fragment : Frag) : ℕ :=
  (fragment.2.filter fun i => (bondAt mol i).isRotor).card

/-- TraverseFragments: recursive flood fill marking every fragment reachable
from actfrag through the adjacency relation with partition id nrparts.  The
source recursion terminates because each recursive call first sets a zero
entry of parts to nrparts; fuel bounds the recursion depth, and the callers
below supply fuel = fraglist.length which the source's argument shows
sufficient. -/
def TraverseFragments (mol : Mol) (fuel : ℕ) (actfrag : Frag) (fraglist : List Frag)
    (parts : List ℕ) (nrparts : ℕ) : List ℕ :=
  match fuel with
  | 0 => parts
  | fuel + 1 =>
    fraglist.enum.foldl
      (fun pa p =>
        if pa.getD p.1 0 ≠ 0 then pa
        else if ¬ IsAdjacentAtomBondSets mol actfrag p.2 then pa
        else TraverseFragments mol fuel p.2 fraglist (pa.set p.1 nrparts) nrparts)
      parts

/-- IsAdjacentAtomBondSetCombination: flood-fill partition of the candidate
fragment list under adjacency; the combination qualifies iff exactly one
partition results. -/
def IsAdjacentAtomBondSetCombination (mol : Mol) (fraglist : List Frag) : Bool :=
  let res := fraglist.enum.foldl
    (fun st p =>
      if st.1.getD p.1 0 ≠ 0 then st
      else
        let nr := st.2 + 1
        (TraverseFragments mol fraglist.length p.2 fraglist (st.1.set p.1 nr) nr, nr))
    (List.replicate fraglist.length 0, 0)
  res.2 = 1

/-- CombineAndConnectAtomBondSets: union of the fragments' atom and bond
sets, then re-add every molecular bond both of whose endpoints lie in the
combined atom set (the source's double loop over atom pairs adds exactly
those bonds that are not already present). -/
def CombineAndConnectAtomBondSets (mol : Mol) (fraglist : List Frag) : Frag :=
  let atoms := fraglist.foldl (fun s f => s ∪ f.1) ∅
  let bonds := fraglist.foldl (fun s f => s ∪ f.2) ∅
  let connecting := (mol.bonds.enum.filter fun p => p.2.bgn ∈ atoms ∧ p.2.ed ∈ atoms).map (·.1)
  (atoms, bonds ∪ connecting.toFinset)

/-- GetFragmentAtomBondSetCombinations: for n in range(1, nrfrags), for every
n-combination of the fragment list, keep the connectivity-closed union when
the combination is adjacency-connected and its recounted rotor total lies in
the budget. -/
def GetFragmentAtomBondSetCombinations (mol : Mol) (fraglist : List Frag)
    (MAX_ROTORS MIN_ROTORS : ℕ) : List Frag :=
  (pyRange 1 fraglist.length).flatMap fun n =>
    (combosPy n fraglist).filterMap fun fragcomb =>
      if IsAdjacentAtomBondSetCombination mol fragcomb then
        let frag := CombineAndConnectAtomBondSets mol fragcomb
        if CountRotorsInFragment mol frag ≤ MAX_ROTORS ∧ MIN_ROTORS ≤ CountRotorsInFragment mol frag
        then some frag
        else none
      else none

/-- Fragment-level content of smiles_with_combined: the list of atom/bond
sets passed on to frag_to_smiles, namely the assembler's combinations
followed by the original base fragments (comb_list + frag_list). -/
def smiles_with_combined_frags (mol : Mol) (frag_list : List Frag) (MAX_ROTORS : ℕ) : List Frag :=
  GetFragmentAtomBondSetCombinations mol frag_list MAX_ROTORS 1 ++ frag_list

/-- The generate_fragments loop body for one molecule: a falsy fragment
result skips the molecule; otherwise the combinatorial branch assembles and
encodes combinations, while the non-combinatorial branch evaluates
frag_to_smiles(frag_list, charged) - a two-argument call of a function
requiring three. -/
def processMolecule (combinatorial : Bool) (MAX_ROTORS fuel : ℕ) (mol : Mol) : MolOutcome :=
  match _generate_fragments fuel mol with
  | GenResult.cannotFragment => MolOutcome.skipped
  | GenResult.fuelOut => MolOutcome.fuelOut
  | GenResult.frags l =>
    let frag_list := l.map (·.2)
    if combinatorial then MolOutcome.ok (smiles_with_combined_frags mol frag_list MAX_ROTORS)
    else if pyCallTypeErrors frag_to_smiles_nparams frag_to_smiles_ndefaults 2 then
      MolOutcome.typeErrorRaised
    else MolOutcome.ok frag_list

/-! ## Concrete molecules used as test inputs and counterexamples -/

/-- The linear molecule C-C-C-C of the spec's scenario: four carbons, three
single bonds, all flagged rotatable by perception, uniform Wiberg order 1.0,
no rings, no functional-group matches. -/
def mol4 : Mol :=
  ⟨4, [⟨0, 1, true, some 1⟩, ⟨1, 2, true, some 1⟩, ⟨2, 3, true, some 1⟩], fun _ => 0, 0, []⟩

/-- The three base fragments the grower builds for mol4, one per bond (in
the exact representation _generate_fragments produces). -/
def mol4frags : List Frag :=
  [({0, 1, 2}, {0, 1}), ({1, 0, 2, 3}, {1, 0, 2}), ({2, 1, 3}, {2, 1})]

/-- A chain 7-0-1-2=3-4 whose bond 2-3 is conjugated (Wiberg 1.5) and ends
in a three-membered carbocycle 4-5-6: rotor bond 0-1, one ring system.  The
grower's conjugated-chain recursion reaches atom 4 across the sub-threshold
bond 3-4, adding it without its ring. -/
def molCR : Mol :=
  ⟨8,
   [⟨0, 1, true, some 1⟩, ⟨1, 2, false, some 1⟩, ⟨2, 3, false, some (mkRat 3 2)⟩,
    ⟨3, 4, false, some 1⟩, ⟨4, 5, false, some 1⟩, ⟨5, 6, false, some 1⟩,
    ⟨6, 4, false, some 1⟩, ⟨0, 7, false, some 1⟩],
   fun a => if a = 4 ∨ a = 5 ∨ a = 6 then 1 else 0, 1, []⟩

/-- A six-carbon chain whose last bond (index 4) lacks the WibergBondOrder
data while the first bond carries it; only bond 0 is flagged rotatable. -/
def mol6 : Mol :=
  ⟨6,
   [⟨0, 1, true, some 1⟩, ⟨1, 2, false, some 1⟩, ⟨2, 3, false, some 1⟩,
    ⟨3, 4, false, some 1⟩, ⟨4, 5, false, none⟩],
   fun _ => 0, 0, []⟩

/-- A six-carbon chain whose first bond lacks the WibergBondOrder data. -/
def mol6' : Mol :=
  ⟨6,
   [⟨0, 1, true, none⟩, ⟨1, 2, false, some 1⟩, ⟨2, 3, false, some 1⟩,
    ⟨3, 4, false, some 1⟩, ⟨4, 5, false, some 1⟩],
   fun _ => 0, 0, []⟩

/-- A three-atom chain with two rotor bonds, used to refute the claim that
the assembler considers the subset of all fragments. -/
def mol3 : Mol :=
  ⟨3, [⟨0, 1, true, some 1⟩, ⟨1, 2, true, some 1⟩], fun _ => 0, 0, []⟩

/-- Two adjacent single-bond base fragments over mol3. -/
def mol3frags : List Frag :=
  [({0, 1}, {0}), ({1, 2}, {1})]

/-- A three-membered carbocycle 0-1-2 (one ring system) carrying a chain
4-3-0 whose bond 3-0 is the rotor; all non-ring bonds have Wiberg order 1.0,
the ring bonds 1.4; no functional-group matches. -/
def molW : Mol :=
  ⟨5,
   [⟨0, 1, false, some (mkRat 7 5)⟩, ⟨1, 2, false, some (mkRat 7 5)⟩,
    ⟨2, 0, false, some (mkRat 7 5)⟩, ⟨3, 0, true, some 1⟩, ⟨4, 3, false, some 1⟩],
   fun a => if a = 0 ∨ a = 1 ∨ a = 2 then 1 else 0, 1, []⟩

/-! ## Verification predicates for the ring-integrity analysis -/

/-- The set the frame's atoms_2 name currently denotes. -/
def stA (st : GrowSt) : Finset ℕ :=
  hget st.heap st.aA

/-- The set the frame's bonds_2 name currently denotes. -/
def stB (st : GrowSt) : Finset ℕ :=
  hget st.heap st.bA

/-- Well-formedness of a frame state: both addresses are allocated and
distinct. -/
def stWF (st : GrowSt) : Prop :=
  st.aA < st.heap.length ∧ st.bA < st.heap.length ∧ st.aA ≠ st.bA

/-- A set of atoms is ring closed when it meets no ring system partially. -/
def ringClosed (mol : Mol) (A : Finset ℕ) : Prop :=
  ∀ s, 1 ≤ s → s ≤ mol.nring → (ringAtomsF mol s ∩ A).Nonempty → ringAtomsF mol s ⊆ A

/-- Bond i touches ring system s away from the frame's central atom. -/
def bondTouch (mol : Mol) (central i s : ℕ) : Prop :=
  (mol.parts (bondAt mol i).bgn = s ∧ (bondAt mol i).bgn ≠ central) ∨
    (mol.parts (bondAt mol i).ed = s ∧ (bondAt mol i).ed ≠ central)

/-- Bond i touches ring system s at either endpoint. -/
def bondTouchAny (mol : Mol) (i s : ℕ) : Prop :=
  mol.parts (bondAt mol i).bgn = s ∨ mol.parts (bondAt mol i).ed = s

/-- The invariant of one first-shell growth frame: the atom set is ring
closed, and every collected bond that touches a ring system away from the
central atom has that ring system's atoms fully absorbed. -/
def growInv (mol : Mol) (central : ℕ) (A B : Finset ℕ) : Prop :=
  ringClosed mol A ∧
    ∀ i ∈ B, ∀ s, 1 ≤ s → s ≤ mol.nring → bondTouch mol central i s → ringAtomsF mol s ⊆ A

/-- The invariant of the ring-substituent collection relative to the ring
being absorbed: the collected atoms are ring closed and every collected
bond touching a ring system has that system inside the collection or equal
to the absorbed ring. -/
def rsGood (mol : Mol) (ringIdx : ℕ) (st : Finset ℕ × Finset ℕ) : Prop :=
  ringClosed mol st.1 ∧
    ∀ i ∈ st.2, ∀ s, 1 ≤ s → s ≤ mol.nring → bondTouchAny mol i s →
      ringAtomsF mol s ⊆ st.1 ∪ ringAtomsF mol ringIdx

/-- Hypotheses of the amended ring-integrity claim: no functional-group
tags; ring tags and the tagged ring map agree with the perception
partition; bonds are loop-free with in-range endpoints; partition ids stay
within the ring-system count; ring perception is honest (every ring atom
has two distinct neighbors inside its own ring system); and every non-ring
bond's Wiberg order lies below the threshold, so growth never recurses
past the first shell. -/
def C3Hyp (ctx : GrowCtx) : Prop :=
  (∀ a, ctx.tags.aFg a = none) ∧
    (∀ a, a < ctx.mol.natoms →
      ctx.tags.aRing a = if ctx.mol.parts a = 0 then none else some (ctx.mol.parts a)) ∧
    (∀ b ∈ ctx.mol.bonds, b.bgn ≠ b.ed ∧ b.bgn < ctx.mol.natoms ∧ b.ed < ctx.mol.natoms) ∧
    (∀ a, a < ctx.mol.natoms → ctx.mol.parts a ≤ ctx.mol.nring) ∧
    (∀ s, 1 ≤ s → s ≤ ctx.mol.nring →
      getR ctx.tagged_rings s = (ringAtomsF ctx.mol s, ringBondsF ctx.mol s)) ∧
    (∀ a, a < ctx.mol.natoms → ctx.mol.parts a ≠ 0 →
      ∃ x < ctx.mol.natoms, ∃ y < ctx.mol.natoms, x ≠ y ∧
        ctx.mol.parts x = ctx.mol.parts a ∧ ctx.mol.parts y = ctx.mol.parts a ∧
        (∃ bx < ctx.mol.bonds.length, (x, bx) ∈ nbrs ctx.mol a) ∧
        (∃ bz < ctx.mol.bonds.length, (y, bz) ∈ nbrs ctx.mol a)) ∧
    (∀ b ∈ ctx.mol.bonds, bondInRing ctx.mol b = false → wboV b < thr)

/-! # Theorems -/

/-! ## Store lemmas -/

theorem hins_length (h : List (Finset ℕ)) (n x : ℕ) : (hins h n x).length = h.length := by
  unfold hins
  exact List.length_set h n _

theorem hget_append_lt (h : List (Finset ℕ)) (v : Finset ℕ) (m : ℕ) (hm : m < h.length) :
    hget (h ++ [v]) m = hget h m := by
  unfold hget
  rw [List.getD_eq_getElem?_getD, List.getD_eq_getElem?_getD, List.getElem?_append_left hm]

theorem hget_append_self (h : List (Finset ℕ)) (v : Finset ℕ) :
    hget (h ++ [v]) h.length = v := by
  unfold hget
  rw [List.getD_eq_getElem?_getD, List.getElem?_append_right (le_refl _)]
  simp

theorem hget_hins_self (h : List (Finset ℕ)) (n x : ℕ) (hn : n < h.length) :
    hget (hins h n x) n = insert x (hget h n) := by
  unfold hins hget
  rw [List.getD_eq_getElem?_getD, List.getElem?_set_eq_of_lt _ hn]
  rfl

theorem hget_hins_other (h : List (Finset ℕ)) (n m x : ℕ) (hm : m ≠ n) :
    hget (hins h n x) m = hget h m := by
  unfold hins hget
  simp only [List.getD_eq_getElem?_getD, List.getElem?_set_ne (Ne.symm hm)]

/-! ## Neighbor-list characterization -/

/-- Every neighbor pair names the connecting bond: the bond at the carried
index exists in the molecule and joins the central atom to the neighbor. -/
theorem nbrs_mem {mol : Mol} {a x i : ℕ} (h : (x, i) ∈ nbrs mol a) :
    mol.bonds.get? i = some (bondAt mol i) ∧
      ((bondAt mol i).bgn = a ∧ (bondAt mol i).ed = x ∨
        (bondAt mol i).ed = a ∧ (bondAt mol i).bgn = x) := by
  unfold nbrs at h
  rw [List.mem_filterMap] at h
  obtain ⟨p, hp, hf⟩ := h
  have hp' : mol.bonds[p.1]? = some p.2 := List.mem_enum_iff_getElem?.mp hp
  split_ifs at hf with h1 h2
  · have he : p.2.ed = x ∧ p.1 = i := by
      have := Option.some_inj.mp hf
      exact ⟨congrArg Prod.fst this, congrArg Prod.snd this⟩
    have hba : bondAt mol i = p.2 := by
      unfold bondAt
      rw [List.get?_eq_getElem?, ← he.2, hp']
      rfl
    rw [List.get?_eq_getElem?, hba, ← he.2]
    exact ⟨hp', Or.inl ⟨h1, he.1⟩⟩
  · have he : p.2.bgn = x ∧ p.1 = i := by
      have := Option.some_inj.mp hf
      exact ⟨congrArg Prod.fst this, congrArg Prod.snd this⟩
    have hba : bondAt mol i = p.2 := by
      unfold bondAt
      rw [List.get?_eq_getElem?, ← he.2, hp']
      rfl
    rw [List.get?_eq_getElem?, hba, ← he.2]
    exact ⟨hp', Or.inr ⟨h2, he.1⟩⟩

/-- The bond named by a neighbor pair is a member of the bond list. -/
theorem nbrs_mem_bond {mol : Mol} {a x i : ℕ} (h : (x, i) ∈ nbrs mol a) :
    bondAt mol i ∈ mol.bonds := by
  have := (nbrs_mem h).1
  exact List.get?_mem this

/-! ## The conjugated-chain scan is inert below the threshold -/

/-- Under the amended claim's hypotheses every neighbor bond fails the
conjugated-chain condition, so nnStep leaves the state untouched. -/
theorem nnStep_id {ctx : GrowCtx} (H : C3Hyp ctx) (rec : ℕ → ℕ → GrowSt → Option GrowSt)
    (a : ℕ) (st : GrowSt) (nb : ℕ × ℕ) (hnb : nb ∈ nbrs ctx.mol a) :
    nnStep ctx rec a st nb = some st := by
  have hmem : bondAt ctx.mol nb.2 ∈ ctx.mol.bonds := nbrs_mem_bond (x := nb.1) (by simpa using hnb)
  unfold nnStep
  rw [if_neg]
  rintro ⟨h1, h2, -⟩
  cases hr : bondInRing ctx.mol (bondAt ctx.mol nb.2) with
  | true => exact h2 hr
  | false =>
    have := H.2.2.2.2.2.2 _ hmem hr
    exact absurd h1 (not_lt_of_gt this)

/-- Folding the inert scan over any neighbor sublist returns the state
unchanged. -/
theorem foldlM_nnStep_id {ctx : GrowCtx} (H : C3Hyp ctx)
    (rec : ℕ → ℕ → GrowSt → Option GrowSt) (a : ℕ) (l : List (ℕ × ℕ))
    (hl : ∀ nb ∈ l, nb ∈ nbrs ctx.mol a) (st : GrowSt) :
    l.foldlM (nnStep ctx rec a) st = some st := by
  induction l generalizing st with
  | nil => rfl
  | cons nb rest ih =>
    rw [List.foldlM_cons, nnStep_id H rec a st nb (hl nb (by simp))]
    exact ih (fun x hx => hl x (by simp [hx])) st

/-! ## Extraction of the absorption block -/

theorem hunion_snd (h : List (Finset ℕ)) (n : ℕ) (s : Finset ℕ) :
    (hunion h n s).2 = h.length :=
  rfl

theorem hunion_fst_length (h : List (Finset ℕ)) (n : ℕ) (s : Finset ℕ) :
    (hunion h n s).1.length = h.length + 1 := by
  unfold hunion
  simp

theorem hget_hunion_new (h : List (Finset ℕ)) (n : ℕ) (s : Finset ℕ) :
    hget (hunion h n s).1 (hunion h n s).2 = hget h n ∪ s :=
  hget_append_self h (hget h n ∪ s)

theorem hget_hunion_lt (h : List (Finset ℕ)) (n : ℕ) (s : Finset ℕ) (m : ℕ)
    (hm : m < h.length) : hget (hunion h n s).1 m = hget h m :=
  hget_append_lt h (hget h n ∪ s) m hm

/-- The absorption block unions the tagged ring and its substituents into
both sets, preserves well-formedness and the depth counter. -/
theorem absorbRing_spec (ctx : GrowCtx) (nbBond rotorIdx ringIdx : ℕ) (st : GrowSt)
    (hwf : stWF st) :
    stA (absorbRing ctx nbBond rotorIdx ringIdx st) =
        stA st ∪ (getR ctx.tagged_rings ringIdx).1 ∪
          (_ring_substiuents ctx nbBond rotorIdx ringIdx).1 ∧
      stB (absorbRing ctx nbBond rotorIdx ringIdx st) =
        stB st ∪ (getR ctx.tagged_rings ringIdx).2 ∪
          (_ring_substiuents ctx nbBond rotorIdx ringIdx).2 ∧
      stWF (absorbRing ctx nbBond rotorIdx ringIdx st) ∧
      (absorbRing ctx nbBond rotorIdx ringIdx st).i = st.i := by
  obtain ⟨ha, hb, hab⟩ := hwf
  simp only [absorbRing, stA, stB, stWF]
  refine ⟨?_, ?_, ⟨?_, ?_, ?_⟩, ?_⟩
  · rw [hget_hunion_lt _ _ _ _ (by simp only [hunion_snd, hunion_fst_length]; omega),
      hget_hunion_new, hget_hunion_lt _ _ _ _ (by simp only [hunion_snd, hunion_fst_length]; omega),
      hget_hunion_new]
  · rw [hget_hunion_new, hget_hunion_lt _ _ _ _ (by simp only [hunion_snd, hunion_fst_length]; omega),
      hget_hunion_new, hget_hunion_lt _ _ _ _ hb]
  · simp only [hunion_snd, hunion_fst_length]
    omega
  · simp only [hunion_snd, hunion_fst_length]
    omega
  · simp only [hunion_snd, hunion_fst_length]
    omega
  · trivial

/-! ## Ring-closedness toolkit -/

theorem mem_ringAtomsF {mol : Mol} {a s : ℕ} :
    a ∈ ringAtomsF mol s ↔ a < mol.natoms ∧ mol.parts a = s := by
  unfold ringAtomsF
  simp [Finset.mem_filter, Finset.mem_range]

theorem mem_ringBondsF {mol : Mol} {i s : ℕ} (h : i ∈ ringBondsF mol s) :
    (bondAt mol i).bgn ∈ ringAtomsF mol s ∧ (bondAt mol i).ed ∈ ringAtomsF mol s := by
  unfold ringBondsF at h
  rw [Finset.mem_filter] at h
  exact ⟨h.2.1, h.2.2.1⟩

theorem ringClosed_mono_union {mol : Mol} {A B : Finset ℕ}
    (hA : ringClosed mol A) (hB : ringClosed mol B) : ringClosed mol (A ∪ B) := by
  intro s h1 h2 hne
  obtain ⟨w, hw⟩ := hne
  rw [Finset.mem_inter, Finset.mem_union] at hw
  rcases hw.2 with hwa | hwb
  · exact (hA s h1 h2 ⟨w, Finset.mem_inter.mpr ⟨hw.1, hwa⟩⟩).trans Finset.subset_union_left
  · exact (hB s h1 h2 ⟨w, Finset.mem_inter.mpr ⟨hw.1, hwb⟩⟩).trans Finset.subset_union_right

theorem ringClosed_ringAtomsF {mol : Mol} (r : ℕ) : ringClosed mol (ringAtomsF mol r) := by
  intro s h1 h2 hne
  obtain ⟨w, hw⟩ := hne
  rw [Finset.mem_inter] at hw
  have h1' := mem_ringAtomsF.mp hw.1
  have h2' := mem_ringAtomsF.mp hw.2
  intro x hx
  rw [mem_ringAtomsF] at hx ⊢
  exact ⟨hx.1, by rw [hx.2, ← h1'.2, h2'.2]⟩

theorem ringClosed_insert_nonring {mol : Mol} {A : Finset ℕ} {x : ℕ}
    (hA : ringClosed mol A) (hx : mol.parts x = 0) : ringClosed mol (insert x A) := by
  intro s h1 h2 hne
  obtain ⟨w, hw⟩ := hne
  rw [Finset.mem_inter, Finset.mem_insert] at hw
  rcases hw.2 with hwx | hwA
  · subst hwx
    have := (mem_ringAtomsF.mp hw.1).2
    omega
  · exact (hA s h1 h2 ⟨w, Finset.mem_inter.mpr ⟨hw.1, hwA⟩⟩).trans (Finset.subset_insert _ _)

theorem ringClosed_empty (mol : Mol) : ringClosed mol (∅ : Finset ℕ) := by
  intro s h1 h2 hne
  simp at hne

/-- Generic preservation of a predicate along a left fold. -/
theorem foldl_preserve {α β : Type} (f : β → α → β) (P : β → Prop) (l : List α) (init : β)
    (hinit : P init) (hstep : ∀ b a, a ∈ l → P b → P (f b a)) : P (l.foldl f init) := by
  induction l generalizing init with
  | nil => exact hinit
  | cons x xs ih =>
    exact ih (f init x) (hstep init x (by simp) hinit)
      fun b a ha hb => hstep b a (by simp [ha]) hb

/-! ## Facts available under the amended hypotheses -/

theorem is_fgroup_none {ctx : GrowCtx} (H : C3Hyp ctx) (a : ℕ) : _is_fgroup ctx a = none := by
  unfold _is_fgroup
  rw [H.1 a]
  rfl

theorem aRing_read {ctx : GrowCtx} (H : C3Hyp ctx) {a : ℕ} (ha : a < ctx.mol.natoms)
    (hz : ctx.mol.parts a ≠ 0) : (ctx.tags.aRing a).getD 0 = ctx.mol.parts a := by
  rw [H.2.1 a ha, if_neg hz]
  rfl

theorem fgroupRingOf_none {ctx : GrowCtx} (H : C3Hyp ctx) (a atomIdx : ℕ) :
    fgroupRingOf ctx a atomIdx = none := by
  unfold fgroupRingOf
  rw [H.1 a, H.1 atomIdx]
  cases ctx.tags.aRing a <;> cases ctx.tags.aRing atomIdx <;> rfl

/-- Endpoints of a neighbor bond under loop-free bonds: the far endpoint
differs from the central atom, both are in range, and the endpoint set is
exactly the central atom and the neighbor. -/
theorem nbrs_endpoints {ctx : GrowCtx} (H : C3Hyp ctx) {a x i : ℕ}
    (h : (x, i) ∈ nbrs ctx.mol a) :
    x ≠ a ∧ x < ctx.mol.natoms ∧ a < ctx.mol.natoms ∧
      ((bondAt ctx.mol i).bgn = a ∧ (bondAt ctx.mol i).ed = x ∨
        (bondAt ctx.mol i).ed = a ∧ (bondAt ctx.mol i).bgn = x) := by
  obtain ⟨hg, hend⟩ := nbrs_mem h
  have hb := H.2.2.1 _ (List.get?_mem hg)
  rcases hend with ⟨h1, h2⟩ | ⟨h1, h2⟩
  · exact ⟨by rw [← h1, ← h2]; exact fun hc => hb.1 hc.symm, h2 ▸ hb.2.2, h1 ▸ hb.2.1,
      Or.inl ⟨h1, h2⟩⟩
  · exact ⟨by rw [← h1, ← h2]; exact fun hc => hb.1 hc, h2 ▸ hb.2.1, h1 ▸ hb.2.2,
      Or.inr ⟨h1, h2⟩⟩

/-! ## The ring-substituent collection respects ring systems -/

theorem rsStep_good {ctx : GrowCtx} (H : C3Hyp ctx) {ringIdx : ℕ}
    (hr1 : 1 ≤ ringIdx) (hr2 : ringIdx ≤ ctx.mol.nring) {aIdx : ℕ}
    (haP : ctx.mol.parts aIdx = ringIdx) (bIdx rotIdx : ℕ)
    {st : Finset ℕ × Finset ℕ} (hst : rsGood ctx.mol ringIdx st)
    {nb : ℕ × ℕ} (hnb : nb ∈ nbrs ctx.mol aIdx) :
    rsGood ctx.mol ringIdx (rsStep ctx bIdx rotIdx ringIdx st nb) := by
  obtain ⟨hxa, hxlt, halt, hend⟩ := nbrs_endpoints H hnb
  have hends : ∀ s, 1 ≤ s → bondTouchAny ctx.mol nb.2 s →
      s = ringIdx ∨ s = ctx.mol.parts nb.1 := by
    intro s h1 ht
    rcases hend with ⟨e1, e2⟩ | ⟨e1, e2⟩ <;> rcases ht with ht | ht <;>
      first
        | exact Or.inl (by rw [← ht, e1, haP])
        | exact Or.inr (by rw [← ht, e2])
  unfold rsStep
  split_ifs with hmem hring hortho hkeep
  · exact hst
  · -- neighbor in a different ring system, ortho: absorb that ring whole
    have hz : ctx.mol.parts nb.1 ≠ 0 := by
      unfold atomInRing at hring
      exact of_decide_eq_true hring
    have hr2' : (ctx.tags.aRing nb.1).getD 0 = ctx.mol.parts nb.1 := aRing_read H hxlt hz
    have hp2 : ctx.mol.parts nb.1 ≤ ctx.mol.nring := H.2.2.2.1 _ hxlt
    have hget : getR ctx.tagged_rings ((ctx.tags.aRing nb.1).getD 0) =
        (ringAtomsF ctx.mol (ctx.mol.parts nb.1), ringBondsF ctx.mol (ctx.mol.parts nb.1)) := by
      rw [hr2']
      exact H.2.2.2.2.1 _ (by omega) hp2
    rw [hget]
    constructor
    · exact ringClosed_mono_union hst.1 (ringClosed_ringAtomsF _)
    · intro i hi s h1 h2 ht
      rw [Finset.mem_insert] at hi
      rcases hi with hi | hi
      · subst hi
        rcases hends s h1 ht with hs | hs
        · exact hs ▸ Finset.subset_union_right
        · exact Finset.Subset.trans (by rw [hs]) <|
            Finset.Subset.trans Finset.subset_union_right Finset.subset_union_left
      · rw [Finset.mem_union] at hi
        rcases hi with hi | hi
        · exact (hst.2 i hi s h1 h2 ht).trans
            (Finset.union_subset_union Finset.subset_union_left (Finset.Subset.refl _))
        · have hib := mem_ringBondsF hi
          have : s = ctx.mol.parts nb.1 := by
            rcases ht with ht | ht
            · have := (mem_ringAtomsF.mp hib.1).2
              omega
            · have := (mem_ringAtomsF.mp hib.2).2
              omega
          rw [this]
          exact Finset.Subset.trans Finset.subset_union_right Finset.subset_union_left
  · -- neighbor in a ring but same system or not ortho
    exact hst
  · -- non-ring neighbor kept: parts nb.1 = 0
    rw [is_fgroup_none H]
    have hz : ctx.mol.parts nb.1 = 0 := by
      by_contra hc
      exact hring (by unfold atomInRing; exact decide_eq_true hc)
    constructor
    · exact ringClosed_insert_nonring hst.1 hz
    · intro i hi s h1 h2 ht
      rw [Finset.mem_insert] at hi
      rcases hi with hi | hi
      · subst hi
        rcases hends s h1 ht with hs | hs
        · exact hs ▸ Finset.subset_union_right
        · omega
      · exact (hst.2 i hi s h1 h2 ht).trans
          (Finset.union_subset_union (Finset.subset_insert _ _) (Finset.Subset.refl _))
  · -- non-ring neighbor dropped
    exact hst

theorem ring_substiuents_good {ctx : GrowCtx} (H : C3Hyp ctx) {ringIdx : ℕ}
    (hr1 : 1 ≤ ringIdx) (hr2 : ringIdx ≤ ctx.mol.nring) (bIdx rotIdx : ℕ) :
    rsGood ctx.mol ringIdx (_ring_substiuents ctx bIdx rotIdx ringIdx) := by
  unfold _ring_substiuents
  refine foldl_preserve _ (rsGood ctx.mol ringIdx) _ _
    ⟨ringClosed_empty _, by intro i hi; simp at hi⟩ ?_
  intro st aIdx ha hst
  have haP : ctx.mol.parts aIdx = ringIdx := by
    have : aIdx ∈ (getR ctx.tagged_rings ringIdx).1 := by
      unfold elemsB at ha
      exact of_decide_eq_true (List.mem_filter.mp ha).2
    rw [H.2.2.2.2.1 _ hr1 hr2] at this
    exact (mem_ringAtomsF.mp this).2
  exact foldl_preserve _ (rsGood ctx.mol ringIdx) _ _ hst
    fun st' nb hnb hst' => rsStep_good H hr1 hr2 haP bIdx rotIdx hst' hnb

/-! ## One neighbor step preserves the growth invariant -/

/-- Inserting an atom whose ring (if any) is already covered preserves ring
closedness. -/
theorem ringClosed_insert_ring {mol : Mol} {A : Finset ℕ} {x : ℕ} (hA : ringClosed mol A)
    (hx : mol.parts x ≠ 0 → ringAtomsF mol (mol.parts x) ⊆ insert x A) :
    ringClosed mol (insert x A) := by
  intro s h1 h2 hne
  obtain ⟨w, hw⟩ := hne
  rw [Finset.mem_inter, Finset.mem_insert] at hw
  rcases hw.2 with hwx | hwA
  · subst hwx
    have hp := (mem_ringAtomsF.mp hw.1).2
    rw [← hp]
    exact hx (by omega)
  · exact (hA s h1 h2 ⟨w, Finset.mem_inter.mpr ⟨hw.1, hwA⟩⟩).trans (Finset.subset_insert _ _)

/-- The bond of a neighbor pair touches (away from the central atom) only
the neighbor's own ring system. -/
theorem bondTouch_nbr {ctx : GrowCtx} (H : C3Hyp ctx) {a : ℕ} {nb : ℕ × ℕ}
    (hnb : nb ∈ nbrs ctx.mol a) {s : ℕ} (h1 : 1 ≤ s)
    (ht : bondTouch ctx.mol a nb.2 s) : ctx.mol.parts nb.1 = s := by
  obtain ⟨hxa, hxlt, halt, hend⟩ := nbrs_endpoints H hnb
  rcases hend with ⟨e1, e2⟩ | ⟨e1, e2⟩ <;> rcases ht with ⟨ht1, ht2⟩ | ⟨ht1, ht2⟩ <;>
    first
      | (exact absurd e1 ht2)
      | (rw [← ht1, e2])

/-- Conversely, when the neighbor lies in ring system s the bond does touch
s away from the central atom. -/
theorem bondTouch_nbr_intro {ctx : GrowCtx} (H : C3Hyp ctx) {a : ℕ} {nb : ℕ × ℕ}
    (hnb : nb ∈ nbrs ctx.mol a) :
    bondTouch ctx.mol a nb.2 (ctx.mol.parts nb.1) := by
  obtain ⟨hxa, hxlt, halt, hend⟩ := nbrs_endpoints H hnb
  rcases hend with ⟨e1, e2⟩ | ⟨e1, e2⟩
  · exact Or.inr ⟨by rw [e2], by rw [e2]; exact hxa⟩
  · exact Or.inl ⟨by rw [e2], by rw [e2]; exact hxa⟩

/-- A bondTouch is in particular a bondTouchAny. -/
theorem bondTouch_any {mol : Mol} {central i s : ℕ} (h : bondTouch mol central i s) :
    bondTouchAny mol i s := by
  rcases h with ⟨h, -⟩ | ⟨h, -⟩
  · exact Or.inl h
  · exact Or.inr h

/-- One neighbor-processing step of the first shell, under the amended
hypotheses: it succeeds, keeps the state well formed at depth zero,
preserves the growth invariant, only grows both sets, and fully absorbs the
ring system of a processed non-pair ring neighbor. -/
theorem nbrStep_spec {ctx : GrowCtx} (H : C3Hyp ctx)
    (rec : ℕ → ℕ → GrowSt → Option GrowSt) (rotorIdx atomIdx pairIdx : ℕ) {st : GrowSt}
    {nb : ℕ × ℕ} (hnb : nb ∈ nbrs ctx.mol atomIdx) (hwf : stWF st) (hi : st.i = 0)
    (hinv : growInv ctx.mol atomIdx (stA st) (stB st)) :
    ∃ st', nbrStep ctx rec rotorIdx atomIdx pairIdx st nb = some st' ∧ stWF st' ∧
      st'.i = 0 ∧ growInv ctx.mol atomIdx (stA st') (stB st') ∧
      stA st ⊆ stA st' ∧ stB st ⊆ stB st' ∧
      (nb.1 ≠ pairIdx → ctx.mol.parts nb.1 ≠ 0 →
        ringAtomsF ctx.mol (ctx.mol.parts nb.1) ⊆ stA st') := by
  obtain ⟨hxa, hxlt, halt, hend⟩ := nbrs_endpoints H hnb
  obtain ⟨hA, hB, hAB⟩ := hwf
  have hnbmem : nb ∈ nbrs ctx.mol atomIdx := hnb
  simp only [nbrStep]
  by_cases hpair : nb.1 = pairIdx
  · rw [if_pos hpair]
    exact ⟨st, rfl, ⟨hA, hB, hAB⟩, hi, hinv, Finset.Subset.refl _, Finset.Subset.refl _,
      fun h => absurd hpair h⟩
  rw [if_neg hpair]
  have hA1 : hget (hins st.heap st.aA nb.1) st.aA = insert nb.1 (stA st) :=
    hget_hins_self _ _ _ hA
  have hB1 : hget (hins st.heap st.aA nb.1) st.bA = stB st :=
    hget_hins_other _ _ _ _ (Ne.symm hAB)
  have hwf1 : stWF ⟨hins st.heap st.aA nb.1, st.aA, st.bA, st.i⟩ := by
    refine ⟨?_, ?_, hAB⟩ <;> rw [hins_length] <;> assumption
  rw [hB1]
  by_cases hmem : nb.2 ∈ stB st
  · -- connecting bond already collected: FGROUP_RING, inert without tags
    rw [if_pos hmem, fgroupRingOf_none H]
    have hcov : ctx.mol.parts nb.1 ≠ 0 →
        ringAtomsF ctx.mol (ctx.mol.parts nb.1) ⊆ stA st := by
      intro hz
      have hle : ctx.mol.parts nb.1 ≤ ctx.mol.nring := H.2.2.2.1 _ hxlt
      exact hinv.2 nb.2 hmem _ (by omega) hle (bondTouch_nbr_intro H hnb)
    refine ⟨_, rfl, hwf1, hi, ⟨?_, ?_⟩, ?_, ?_, ?_⟩
    · show ringClosed ctx.mol (hget (hins st.heap st.aA nb.1) st.aA)
      rw [hA1]
      exact ringClosed_insert_ring hinv.1
        fun hz => (hcov hz).trans (Finset.subset_insert _ _)
    · show ∀ i ∈ hget (hins st.heap st.aA nb.1) st.bA, _
      rw [hB1]
      intro i hi' s h1 h2 ht
      show ringAtomsF ctx.mol s ⊆ hget (hins st.heap st.aA nb.1) st.aA
      rw [hA1]
      exact (hinv.2 i hi' s h1 h2 ht).trans (Finset.subset_insert _ _)
    · show stA st ⊆ hget (hins st.heap st.aA nb.1) st.aA
      rw [hA1]
      exact Finset.subset_insert _ _
    · show stB st ⊆ hget (hins st.heap st.aA nb.1) st.bA
      rw [hB1]
    · intro hp hz
      show ringAtomsF ctx.mol (ctx.mol.parts nb.1) ⊆ hget (hins st.heap st.aA nb.1) st.aA
      rw [hA1]
      exact (hcov hz).trans (Finset.subset_insert _ _)
  rw [if_neg hmem, if_neg (by rw [hi]; rintro ⟨hc, -⟩; omega)]
  -- the bond is added; name the intermediate state
  have hA2 : hget (hins (hins st.heap st.aA nb.1) st.bA nb.2) st.aA =
      insert nb.1 (stA st) := by
    rw [hget_hins_other _ _ _ _ hAB, hA1]
  have hB2 : hget (hins (hins st.heap st.aA nb.1) st.bA nb.2) st.bA =
      insert nb.2 (stB st) := by
    rw [hget_hins_self _ _ _ (by rw [hins_length]; exact hB), hB1]
  have hwf2 : stWF ⟨hins (hins st.heap st.aA nb.1) st.bA nb.2, st.aA, st.bA, st.i⟩ := by
    refine ⟨?_, ?_, hAB⟩ <;> rw [hins_length, hins_length] <;> assumption
  rw [is_fgroup_none H]
  by_cases hring : atomInRing ctx.mol nb.1
  · -- neighbor in a ring: absorb its whole ring system plus substituents
    rw [if_pos hring]
    have hz : ctx.mol.parts nb.1 ≠ 0 := by
      unfold atomInRing at hring
      exact of_decide_eq_true hring
    have hle : ctx.mol.parts nb.1 ≤ ctx.mol.nring := H.2.2.2.1 _ hxlt
    have hr2' : (ctx.tags.aRing nb.1).getD 0 = ctx.mol.parts nb.1 := aRing_read H hxlt hz
    have hgetR : getR ctx.tagged_rings ((ctx.tags.aRing nb.1).getD 0) =
        (ringAtomsF ctx.mol (ctx.mol.parts nb.1), ringBondsF ctx.mol (ctx.mol.parts nb.1)) := by
      rw [hr2']
      exact H.2.2.2.2.1 _ (by omega) hle
    obtain ⟨sA, sB, sWF, sI⟩ := absorbRing_spec ctx nb.2 rotorIdx ((ctx.tags.aRing nb.1).getD 0)
      ⟨hins (hins st.heap st.aA nb.1) st.bA nb.2, st.aA, st.bA, st.i⟩ hwf2
    have hrs := @ring_substiuents_good ctx H ((ctx.tags.aRing nb.1).getD 0)
      (by rw [hr2']; omega) (by rw [hr2']; exact hle) nb.2 rotorIdx
    rw [hgetR] at sA sB
    have hrs' := hrs
    rw [hr2'] at hrs'
    set rsP := _ring_substiuents ctx nb.2 rotorIdx ((ctx.tags.aRing nb.1).getD 0) with hrsP
    have hstA2 : stA ⟨hins (hins st.heap st.aA nb.1) st.bA nb.2, st.aA, st.bA, st.i⟩ =
        insert nb.1 (stA st) := hA2
    have hstB2 : stB ⟨hins (hins st.heap st.aA nb.1) st.bA nb.2, st.aA, st.bA, st.i⟩ =
        insert nb.2 (stB st) := hB2
    rw [hstA2] at sA
    rw [hstB2] at sB
    rw [foldlM_nnStep_id H rec nb.1 _ (fun x hx => hx)]
    refine ⟨_, rfl, sWF, by rw [sI]; exact hi, ⟨?_, ?_⟩, ?_, ?_, ?_⟩
    · rw [sA]
      intro s h1 h2 hne
      obtain ⟨w, hw⟩ := hne
      rw [Finset.mem_inter] at hw
      have hw2 := hw.2
      rw [Finset.mem_union, Finset.mem_union, Finset.mem_insert] at hw2
      have hsw := (mem_ringAtomsF.mp hw.1).2
      rcases hw2 with (hww | hww) | hww
      · rcases hww with hww | hww
        · subst hww
          have : s = ctx.mol.parts nb.1 := by omega
          subst this
          exact Finset.Subset.trans (Finset.Subset.trans Finset.subset_union_right
            (Finset.subset_union_left)) (Finset.Subset.refl _) |>.trans
            (by exact Finset.Subset.refl _) |>.trans (Finset.Subset.refl _) |>.trans
            (Finset.Subset.refl _) |>.trans (Finset.Subset.refl _)
        · exact (hinv.1 s h1 h2 ⟨w, Finset.mem_inter.mpr ⟨hw.1, hww⟩⟩).trans
            ((Finset.subset_insert _ _).trans
              ((Finset.subset_union_left).trans Finset.subset_union_left))
      · have : s = ctx.mol.parts nb.1 := by
          have := (mem_ringAtomsF.mp hww).2
          omega
        subst this
        exact Finset.Subset.trans Finset.subset_union_right Finset.subset_union_left
      · exact (hrs.1 s h1 h2 ⟨w, Finset.mem_inter.mpr ⟨hw.1, hww⟩⟩).trans
          Finset.subset_union_right
    · rw [sA, sB]
      intro i hi' s h1 h2 ht
      rw [Finset.mem_union, Finset.mem_union, Finset.mem_insert] at hi'
      rcases hi' with (hii | hii) | hii
      · rcases hii with hii | hii
        · subst hii
          have hs : s = ctx.mol.parts nb.1 := (bondTouch_nbr H hnb h1 ht).symm
          subst hs
          exact Finset.Subset.trans Finset.subset_union_right Finset.subset_union_left
        · exact (hinv.2 i hii s h1 h2 ht).trans
            ((Finset.subset_insert _ _).trans
              ((Finset.subset_union_left).trans Finset.subset_union_left))
      · have hib := mem_ringBondsF hii
        have hs : s = ctx.mol.parts nb.1 := by
          rcases bondTouch_any ht with hta | hta
          · have := (mem_ringAtomsF.mp hib.1).2
            omega
          · have := (mem_ringAtomsF.mp hib.2).2
            omega
        subst hs
        exact Finset.Subset.trans Finset.subset_union_right Finset.subset_union_left
      · have := hrs.2 i hii s h1 h2 (bondTouch_any ht)
        rw [hr2'] at this
        refine this.trans (Finset.union_subset ?_ ?_)
        · exact Finset.subset_union_right
        · exact Finset.Subset.trans Finset.subset_union_right Finset.subset_union_left
    · rw [sA]
      exact (Finset.subset_insert _ _).trans
        ((Finset.subset_union_left).trans Finset.subset_union_left)
    · rw [sB]
      exact (Finset.subset_insert _ _).trans
        ((Finset.subset_union_left).trans Finset.subset_union_left)
    · intro hp hz'
      rw [sA]
      exact Finset.Subset.trans Finset.subset_union_right Finset.subset_union_left
  · -- neighbor outside any ring: only the atom and bond are added
    rw [if_neg hring]
    have hz : ctx.mol.parts nb.1 = 0 := by
      by_contra hc
      exact hring (by unfold atomInRing; exact decide_eq_true hc)
    rw [foldlM_nnStep_id H rec nb.1 _ (fun x hx => hx)]
    refine ⟨_, rfl, hwf2, hi, ⟨?_, ?_⟩, ?_, ?_, ?_⟩
    · show ringClosed ctx.mol (hget (hins (hins st.heap st.aA nb.1) st.bA nb.2) st.aA)
      rw [hA2]
      exact ringClosed_insert_nonring hinv.1 hz
    · show ∀ i ∈ hget (hins (hins st.heap st.aA nb.1) st.bA nb.2) st.bA, _
      rw [hB2]
      intro i hi' s h1 h2 ht
      show ringAtomsF ctx.mol s ⊆ hget (hins (hins st.heap st.aA nb.1) st.bA nb.2) st.aA
      rw [hA2]
      rw [Finset.mem_insert] at hi'
      rcases hi' with hii | hii
      · subst hii
        have := bondTouch_nbr H hnb h1 ht
        omega
      · exact (hinv.2 i hii s h1 h2 ht).trans (Finset.subset_insert _ _)
    · show stA st ⊆ hget (hins (hins st.heap st.aA nb.1) st.bA nb.2) st.aA
      rw [hA2]
      exact Finset.subset_insert _ _
    · show stB st ⊆ hget (hins (hins st.heap st.aA nb.1) st.bA nb.2) st.bA
      rw [hB2]
      exact Finset.subset_insert _ _
    · intro hp hz'
      exact absurd hz hz'

/-- The whole first-shell fold: success, invariant, monotonicity, and full
absorption of every processed ring neighbor's ring system. -/
theorem iter_fold_spec {ctx : GrowCtx} (H : C3Hyp ctx)
    (rec : ℕ → ℕ → GrowSt → Option GrowSt) (rotorIdx atomIdx pairIdx : ℕ)
    (l : List (ℕ × ℕ)) (hl : ∀ nb ∈ l, nb ∈ nbrs ctx.mol atomIdx) {st : GrowSt}
    (hwf : stWF st) (hi : st.i = 0) (hinv : growInv ctx.mol atomIdx (stA st) (stB st)) :
    ∃ st', l.foldlM (nbrStep ctx rec rotorIdx atomIdx pairIdx) st = some st' ∧ stWF st' ∧
      st'.i = 0 ∧ growInv ctx.mol atomIdx (stA st') (stB st') ∧
      stA st ⊆ stA st' ∧ stB st ⊆ stB st' ∧
      ∀ nb ∈ l, nb.1 ≠ pairIdx → ctx.mol.parts nb.1 ≠ 0 →
        ringAtomsF ctx.mol (ctx.mol.parts nb.1) ⊆ stA st' := by
  induction l generalizing st with
  | nil =>
    exact ⟨st, rfl, hwf, hi, hinv, Finset.Subset.refl _, Finset.Subset.refl _,
      fun nb h => absurd h (List.not_mem_nil nb)⟩
  | cons nb rest ih =>
    obtain ⟨st1, he1, hwf1, hi1, hinv1, hma1, hmb1, habs1⟩ :=
      nbrStep_spec H rec rotorIdx atomIdx pairIdx (hl nb (by simp)) hwf hi hinv
    obtain ⟨st2, he2, hwf2, hi2, hinv2, hma2, hmb2, habs2⟩ :=
      ih (fun x hx => hl x (by simp [hx])) hwf1 hi1 hinv1
    refine ⟨st2, ?_, hwf2, hi2, hinv2, hma1.trans hma2, hmb1.trans hmb2, ?_⟩
    · rw [List.foldlM_cons, he1]
      exact he2
    · intro x hx hp hz
      rw [List.mem_cons] at hx
      rcases hx with hx | hx
      · subst hx
        exact (habs1 hp hz).trans hma2
      · exact habs2 x hx hp hz

/-- What one endpoint traversal of the grower guarantees under the amended
hypotheses: a ring-closed atom set that fully contains the ring system of
every non-pair ring neighbor of the central atom. -/
theorem iterate_nbratoms_spec {ctx : GrowCtx} (H : C3Hyp ctx)
    {fuel rotorIdx atomIdx pairIdx : ℕ} {res : Finset ℕ × Finset ℕ}
    (h : iterate_nbratoms ctx fuel rotorIdx atomIdx pairIdx = some res) :
    ringClosed ctx.mol res.1 ∧
      (∀ x bx, (x, bx) ∈ nbrs ctx.mol atomIdx → x ≠ pairIdx → ctx.mol.parts x ≠ 0 →
        ringAtomsF ctx.mol (ctx.mol.parts x) ⊆ res.1) := by
  unfold iterate_nbratoms at h
  rw [Option.map_eq_some'] at h
  obtain ⟨stEnd, hgo, hres⟩ := h
  cases fuel with
  | zero => exact absurd hgo (by unfold iterGo; simp)
  | succ f =>
    unfold iterGo at hgo
    have hst0 : stWF (⟨[∅, ∅], 0, 1, 0⟩ : GrowSt) := by
      unfold stWF
      simp
    have hinv0 : growInv ctx.mol atomIdx (stA ⟨[∅, ∅], 0, 1, 0⟩) (stB ⟨[∅, ∅], 0, 1, 0⟩) := by
      constructor
      · show ringClosed ctx.mol (hget [∅, ∅] 0)
        exact ringClosed_empty _
      · show ∀ i ∈ hget [∅, ∅] 1, _
        intro i hi
        simp [hget] at hi
    obtain ⟨st', he', hwf', hi', hinv', hma', hmb', habs'⟩ :=
      iter_fold_spec H (fun r a st => iterGo ctx f r a pairIdx st) rotorIdx atomIdx pairIdx
        (nbrs ctx.mol atomIdx) (fun nb h => h) hst0 rfl hinv0
    rw [he'] at hgo
    have hst : stEnd = st' := by
      injection hgo with hg
      exact hg.symm
    subst hst
    subst hres
    exact ⟨hinv'.1, fun x bx hx hp hz => habs' (x, bx) hx hp hz⟩

/-- C3 (amended): ring integrity of base fragments holds for molecules with
no tagged functional groups whose conjugation stays inside rings: under the
C3Hyp hypotheses - honest ring perception, consistent tags, loop-free
bonds, and every non-ring bond below the Wiberg threshold (so growth never
leaves the first shell) - a fragment built by _build_frag never contains a
strict non-empty proper subset of a ring system's atom set. -/
theorem C3_amended_ring_integrity {ctx : GrowCtx} (H : C3Hyp ctx) {fuel bIdx : ℕ}
    (hb : bIdx < ctx.mol.bonds.length) {frag : Finset ℕ × Finset ℕ}
    (hbuild : _build_frag ctx fuel bIdx = some frag) :
    ∀ s, 1 ≤ s → s ≤ ctx.mol.nring →
      ringAtomsF ctx.mol s ⊆ frag.1 ∨ ringAtomsF ctx.mol s ∩ frag.1 = ∅ := by
  simp only [_build_frag] at hbuild
  set b := bondAt ctx.mol bIdx with hbdef
  have hbmem : b ∈ ctx.mol.bonds := by
    rw [hbdef]
    unfold bondAt
    rw [List.get?_eq_getElem?, List.getElem?_eq_getElem hb]
    exact List.getElem_mem _
  obtain ⟨hbne, hblt1, hblt2⟩ := H.2.2.1 b hbmem
  cases h1 : iterate_nbratoms ctx fuel bIdx b.bgn b.ed with
  | none => rw [h1] at hbuild; exact absurd hbuild (by simp)
  | some r1 =>
    cases h2 : iterate_nbratoms ctx fuel bIdx b.ed b.bgn with
    | none => rw [h1, h2] at hbuild; exact absurd hbuild (by simp)
    | some r2 =>
      rw [h1, h2] at hbuild
      have hfrag : frag = (insert b.bgn r1.1 ∪ insert b.ed r2.1, insert bIdx (r1.2 ∪ r2.2)) :=
        (Option.some_inj.mp hbuild).symm
      obtain ⟨hc1, habs1⟩ := iterate_nbratoms_spec H h1
      obtain ⟨hc2, habs2⟩ := iterate_nbratoms_spec H h2
      -- an endpoint's own ring system is fully absorbed by its traversal
      have hcover : ∀ e p res, iterate_nbratoms ctx fuel bIdx e p = some res →
          e < ctx.mol.natoms → e ≠ p →
          (∀ x bx, (x, bx) ∈ nbrs ctx.mol e → x ≠ p → ctx.mol.parts x ≠ 0 →
            ringAtomsF ctx.mol (ctx.mol.parts x) ⊆ res.1) →
          ctx.mol.parts e ≠ 0 → ringAtomsF ctx.mol (ctx.mol.parts e) ⊆ res.1 := by
        intro e p res hres helt hep habs hz
        obtain ⟨x, hxlt, y, hylt, hxy, hpx, hpy, ⟨bx, hbxlt, hbx⟩, ⟨bz, hbzlt, hbz⟩⟩ :=
          H.2.2.2.2.2.1 e helt hz
        by_cases hxp : x = p
        · have hyp : y ≠ p := fun hc => hxy (by rw [hxp, hc])
          have := habs y bz hbz hyp (by omega)
          rwa [hpy] at this
        · have := habs x bx hbx hxp (by omega)
          rwa [hpx] at this
      intro s hs1 hs2
      by_cases hne : (ringAtomsF ctx.mol s ∩ frag.1).Nonempty
      · left
        obtain ⟨w, hw⟩ := hne
        rw [Finset.mem_inter] at hw
        have hws := (mem_ringAtomsF.mp hw.1).2
        rw [hfrag] at hw ⊢
        simp only [Finset.mem_union, Finset.mem_insert] at hw
        rcases hw.2 with (hww | hww) | hww | hww
        · -- w is the begin endpoint
          subst hww
          have hcov := hcover b.bgn b.ed r1 h1 hblt1
            (fun hc => hbne hc) habs1 (by omega)
          rw [hws] at hcov
          exact hcov.trans ((Finset.subset_insert _ _).trans
            ((Finset.subset_union_left)))
        · -- w inside the begin traversal
          exact (hc1 s hs1 hs2 ⟨w, Finset.mem_inter.mpr ⟨hw.1, hww⟩⟩).trans
            ((Finset.subset_insert _ _).trans Finset.subset_union_left)
        · -- w is the end endpoint
          subst hww
          have hcov := hcover b.ed b.bgn r2 h2 hblt2
            (fun hc => hbne hc.symm) habs2 (by omega)
          rw [hws] at hcov
          exact hcov.trans ((Finset.subset_insert _ _).trans Finset.subset_union_right)
        · -- w inside the end traversal
          exact (hc2 s hs1 hs2 ⟨w, Finset.mem_inter.mpr ⟨hw.1, hww⟩⟩).trans
            ((Finset.subset_insert _ _).trans Finset.subset_union_right)
      · right
        exact Finset.not_nonempty_iff_eq_empty.mp hne

/-- Witness for the amended C3 at molW: the hypotheses hold for the tagged
molecule, and the rotor-bond fragment (which absorbs the whole ring) indeed
meets ring system 1 wholly or not at all. -/
theorem C3_amended_witness :
    ringAtomsF molW 1 ⊆ ({4, 0, 1, 2, 3} : Finset ℕ) ∨
      ringAtomsF molW 1 ∩ ({4, 0, 1, 2, 3} : Finset ℕ) = ∅ :=
  @C3_amended_ring_integrity (growCtxOf molW)
    ⟨fun _ => rfl, by decide, by decide, by decide,
      fun s h1 h2 => by
        have hn : (growCtxOf molW).mol.nring = 1 := rfl
        have hs : s = 1 := by omega
        subst hs
        rfl,
      fun a ha hz => by
        have hn : (growCtxOf molW).mol.natoms = 5 := rfl
        rw [hn] at ha
        interval_cases a
        · exact ⟨1, by decide, 2, by decide, by decide, by decide, by decide,
            ⟨0, by decide, by decide⟩, ⟨2, by decide, by decide⟩⟩
        · exact ⟨0, by decide, 2, by decide, by decide, by decide, by decide,
            ⟨0, by decide, by decide⟩, ⟨1, by decide, by decide⟩⟩
        · exact ⟨1, by decide, 0, by decide, by decide, by decide, by decide,
            ⟨1, by decide, by decide⟩, ⟨2, by decide, by decide⟩⟩
        · exact absurd (by decide) hz
        · exact absurd (by decide) hz,
      by decide⟩
    10 3 (by decide)
    ((({4, 0, 1, 2, 3} : Finset ℕ), ({4, 0, 1, 2, 3} : Finset ℕ))) rfl
    1 (by decide) (by decide)

/-- Membership in the assembler's output, unfolded: an element is exactly
the connectivity closure of an n-combination, 1 <= n < length, that passes
the flood fill and whose recounted rotor total lies within the budget. -/
theorem mem_GetCombos {mol : Mol} {fraglist : List Frag} {MAXR MINR : ℕ} {frag : Frag} :
    frag ∈ GetFragmentAtomBondSetCombinations mol fraglist MAXR MINR ↔
      ∃ n ∈ pyRange 1 fraglist.length, ∃ fragcomb ∈ combosPy n fraglist,
        IsAdjacentAtomBondSetCombination mol fragcomb = true ∧
        CountRotorsInFragment mol (CombineAndConnectAtomBondSets mol fragcomb) ≤ MAXR ∧
        MINR ≤ CountRotorsInFragment mol (CombineAndConnectAtomBondSets mol fragcomb) ∧
        frag = CombineAndConnectAtomBondSets mol fragcomb := by
  unfold GetFragmentAtomBondSetCombinations
  simp only [List.mem_flatMap, List.mem_filterMap]
  constructor
  · rintro ⟨n, hn, fragcomb, hc, hsome⟩
    refine ⟨n, hn, fragcomb, hc, ?_⟩
    split_ifs at hsome with ha hb
    exact ⟨ha, hb.1, hb.2, (Option.some_inj.mp hsome).symm⟩
  · rintro ⟨n, hn, fragcomb, hc, hadj, hmax, hmin, rfl⟩
    refine ⟨n, hn, fragcomb, hc, ?_⟩
    simp only [hadj, if_true]
    rw [if_pos ⟨hmax, hmin⟩]

/-- Membership in pyRange. -/
theorem mem_pyRange {a b m : ℕ} : m ∈ pyRange a b ↔ a ≤ m ∧ m < b := by
  unfold pyRange
  simp only [List.mem_map, List.mem_range]
  constructor
  · rintro ⟨k, hk, rfl⟩
    omega
  · rintro ⟨h1, h2⟩
    exact ⟨m - a, by omega, by omega⟩

/-- C4: for every list of base fragments and every rotor bounds, every
combination emitted by GetFragmentAtomBondSetCombinations satisfies
MIN_ROTORS <= rotor count <= MAX_ROTORS, where the rotor count is computed
on the union produced by CombineAndConnectAtomBondSets after re-adding
every direct bond between atoms of the union. -/
theorem C4_budget_respect (mol : Mol) (fraglist : List Frag) (MAXR MINR : ℕ) (frag : Frag)
    (h : frag ∈ GetFragmentAtomBondSetCombinations mol fraglist MAXR MINR) :
    MINR ≤ CountRotorsInFragment mol frag ∧ CountRotorsInFragment mol frag ≤ MAXR := by
  obtain ⟨n, hn, fragcomb, hc, hadj, hmax, hmin, rfl⟩ := mem_GetCombos.mp h
  exact ⟨hmin, hmax⟩

/-- Witness for C4 at a concrete emitted combination over mol3. -/
theorem C4_budget_respect_witness :
    (({0, 1}, {0}) : Frag) ∈ GetFragmentAtomBondSetCombinations mol3 mol3frags 2 1 ∧
      (1 ≤ CountRotorsInFragment mol3 (({0, 1}, {0}) : Frag) ∧
        CountRotorsInFragment mol3 (({0, 1}, {0}) : Frag) ≤ 2) :=
  ⟨by decide, C4_budget_respect mol3 mol3frags 2 1 _ (by decide)⟩

/-- C5: every combination emitted by GetFragmentAtomBondSetCombinations
arises from a candidate subset that the flood fill of
IsAdjacentAtomBondSetCombination certified as one connected component under
the fragment-adjacency relation. -/
theorem C5_connectivity (mol : Mol) (fraglist : List Frag) (MAXR MINR : ℕ) (frag : Frag)
    (h : frag ∈ GetFragmentAtomBondSetCombinations mol fraglist MAXR MINR) :
    ∃ n fragcomb, fragcomb ∈ combosPy n fraglist ∧
      IsAdjacentAtomBondSetCombination mol fragcomb = true ∧
      frag = CombineAndConnectAtomBondSets mol fragcomb := by
  obtain ⟨n, hn, fragcomb, hc, hadj, _, _, rfl⟩ := mem_GetCombos.mp h
  exact ⟨n, fragcomb, hc, hadj, rfl⟩

/-- Witness for C5 at a concrete emitted combination over mol3. -/
theorem C5_connectivity_witness :
    (({1, 2}, {1}) : Frag) ∈ GetFragmentAtomBondSetCombinations mol3 mol3frags 2 1 ∧
      ∃ n fragcomb, fragcomb ∈ combosPy n mol3frags ∧
        IsAdjacentAtomBondSetCombination mol3 fragcomb = true ∧
        (({1, 2}, {1}) : Frag) = CombineAndConnectAtomBondSets mol3 fragcomb :=
  ⟨by decide, C5_connectivity mol3 mol3frags 2 1 _ (by decide)⟩

/-- C1 counterexample: over mol3, the two base fragments are adjacent and
their connectivity-closed union lies within the rotor budget, yet the
combination of all (both) fragments is absent from the assembler's output -
the subset enumeration stops at nrfrags - 1. -/
theorem C1_counterexample :
    IsAdjacentAtomBondSetCombination mol3 mol3frags = true ∧
      CountRotorsInFragment mol3 (CombineAndConnectAtomBondSets mol3 mol3frags) ≤ 2 ∧
      1 ≤ CountRotorsInFragment mol3 (CombineAndConnectAtomBondSets mol3 mol3frags) ∧
      CombineAndConnectAtomBondSets mol3 mol3frags ∉
        GetFragmentAtomBondSetCombinations mol3 mol3frags 2 1 := by
  decide

/-- C1 (amended): the assembler considers every subset of size n with
1 <= n <= nrfrags - 1 - each such subset that is flood-fill connected and
within the rotor budget contributes its connectivity-closed union to the
returned list.  The subset of all fragments lies outside the enumerated
range and is never considered. -/
theorem C1_amended_subsets_considered (mol : Mol) (fraglist : List Frag) (MAXR MINR n : ℕ)
    (fragcomb : List Frag) (hn1 : 1 ≤ n) (hn2 : n < fraglist.length)
    (hc : fragcomb ∈ combosPy n fraglist)
    (hadj : IsAdjacentAtomBondSetCombination mol fragcomb = true)
    (hmax : CountRotorsInFragment mol (CombineAndConnectAtomBondSets mol fragcomb) ≤ MAXR)
    (hmin : MINR ≤ CountRotorsInFragment mol (CombineAndConnectAtomBondSets mol fragcomb)) :
    CombineAndConnectAtomBondSets mol fragcomb ∈
      GetFragmentAtomBondSetCombinations mol fraglist MAXR MINR :=
  mem_GetCombos.mpr ⟨n, mem_pyRange.mpr ⟨hn1, hn2⟩, fragcomb, hc, hadj, hmax, hmin, rfl⟩

/-- Witness for the amended C1 at the singleton subset of the first mol3
fragment. -/
theorem C1_amended_witness :
    [(({0, 1}, {0}) : Frag)] ∈ combosPy 1 mol3frags ∧
      CombineAndConnectAtomBondSets mol3 [(({0, 1}, {0}) : Frag)] ∈
        GetFragmentAtomBondSetCombinations mol3 mol3frags 2 1 :=
  ⟨by decide,
   C1_amended_subsets_considered mol3 mol3frags 2 1 1 _ (by decide) (by decide) (by decide)
     (by decide) (by decide) (by decide)⟩

/-- C6 counterexample, over mol4 (the spec's C-C-C-C scenario): the pairwise
combination of the adjacent base fragments of bonds 1 and 2, which the claim
places in the assembler's output, is absent from it (its recounted rotor
total is 3 > MAX_ROTORS); and the pair of bond-1 and bond-3 fragments, which
the claim says is rejected for failing connectivity, in fact passes the
adjacency flood fill (the fragments overlap and touch), so its rejection is
by rotor budget, not connectivity. -/
theorem C6_counterexample :
    CombineAndConnectAtomBondSets mol4 [({0, 1, 2}, {0, 1}), ({1, 0, 2, 3}, {1, 0, 2})] ∉
        GetFragmentAtomBondSetCombinations mol4 mol4frags 2 1 ∧
      IsAdjacentAtomBondSetCombination mol4 [({0, 1, 2}, {0, 1}), ({2, 1, 3}, {2, 1})] = true := by
  constructor
  · decide
  · decide

/-- C6 (amended): on the linear molecule C-C-C-C the grower yields exactly 3
base fragments keyed by bond index - each terminal bond's fragment holds its
bond, the adjacent bond and the three atoms they span, and the middle bond's
fragment is the whole molecule; with MAX_ROTORS = 2 the assembler emits
exactly the two terminal singleton combinations (each a 2-rotor, 3-atom
fragment), every pairwise combination and the middle singleton being over
budget (3 rotors) while all pairs, including bonds 1 and 3, are
adjacency-connected; the final combined list is those two combinations
followed by the three base fragments. -/
theorem C6_amended_scenario :
    _generate_fragments 10 mol4 =
        GenResult.frags [(0, ({0, 1, 2}, {0, 1})), (1, ({1, 0, 2, 3}, {1, 0, 2})),
          (2, ({2, 1, 3}, {2, 1}))] ∧
      GetFragmentAtomBondSetCombinations mol4 mol4frags 2 1 =
        [({0, 1, 2}, {0, 1}), ({2, 1, 3}, {1, 2})] ∧
      smiles_with_combined_frags mol4 mol4frags 2 =
        [({0, 1, 2}, {0, 1}), ({2, 1, 3}, {1, 2}), ({0, 1, 2}, {0, 1}),
          ({1, 0, 2, 3}, {1, 0, 2}), ({2, 1, 3}, {2, 1})] ∧
      CountRotorsInFragment mol4
          (CombineAndConnectAtomBondSets mol4 [({0, 1, 2}, {0, 1}), ({1, 0, 2, 3}, {1, 0, 2})]) = 3 ∧
      IsAdjacentAtomBondSetCombination mol4 [({0, 1, 2}, {0, 1}), ({2, 1, 3}, {2, 1})] = true :=
  ⟨rfl, rfl, rfl, by decide, by decide⟩

/-- C10: on molCR the base fragment of the rotor bond contains atom 4 -
reached at depth 1 across bond 3 whose Wiberg order 1.0 lies below the
threshold - while that connecting bond is excluded, so atom 4 is an endpoint
of no bond of the fragment's bond set: the atom set is not covered by the
bond set. -/
theorem C10_atom_not_covered_by_bonds :
    _build_frag (growCtxOf molCR) 10 0 = some ({0, 7, 1, 4, 3, 2}, {0, 7, 2, 1}) ∧
      4 ∈ ({0, 7, 1, 4, 3, 2} : Finset ℕ) ∧
      (3 : ℕ) ∉ ({0, 7, 2, 1} : Finset ℕ) ∧
      wboV (bondAt molCR 3) < thr ∧
      ∀ b ∈ ({0, 7, 2, 1} : Finset ℕ), (bondAt molCR b).bgn ≠ 4 ∧ (bondAt molCR b).ed ≠ 4 :=
  ⟨rfl, by decide, by decide, by decide, by decide⟩

/-- C3 counterexample: on molCR the base fragment of the rotor bond contains
ring atom 4 (reached across the sub-threshold bond 3-4 at depth 1) but none
of the other atoms of ring system 1 = {4, 5, 6}: the fragment holds a strict
non-empty proper subset of a ring system's atom set. -/
theorem C3_counterexample :
    _build_frag (growCtxOf molCR) 10 0 = some ({0, 7, 1, 4, 3, 2}, {0, 7, 2, 1}) ∧
      ringAtomsF molCR 1 = {4, 5, 6} ∧
      (ringAtomsF molCR 1 ∩ ({0, 7, 1, 4, 3, 2} : Finset ℕ)).Nonempty ∧
      ¬ ringAtomsF molCR 1 ⊆ ({0, 7, 1, 4, 3, 2} : Finset ℕ) :=
  ⟨rfl, rfl, by decide, by decide⟩

/-- C2 counterexample: mol6's bond 4 lacks the WibergBondOrder data, yet
fragment generation does not fail: the prescan looks only at bonds[:1], so
the molecule is fragmented and a fragment map is returned instead of the
cannot-fragment result the claim requires. -/
theorem C2_counterexample :
    (bondAt mol6 4).wbo = none ∧ wboPrescan mol6 = true ∧
      _generate_fragments 10 mol6 = GenResult.frags [(0, ({0, 1, 2}, {0, 1}))] :=
  ⟨rfl, rfl, rfl⟩

/-- C2 (amended): the Wiberg data check of _generate_fragments covers only
the first bond: the cannot-fragment result is returned exactly when the
molecule's first bond lacks the WibergBondOrder data. -/
theorem C2_amended_first_bond_check (fuel : ℕ) (mol : Mol) (b : Bond) (bs : List Bond)
    (hb : mol.bonds = b :: bs) :
    _generate_fragments fuel mol = GenResult.cannotFragment ↔ b.wbo = none := by
  have hp : wboPrescan mol = b.wbo.isSome := by
    unfold wboPrescan
    rw [hb]
    simp [List.take, List.all_cons]
  unfold _generate_fragments
  rw [hp]
  cases hw : b.wbo with
  | none => simp
  | some q =>
    rw [if_neg (by simp)]
    constructor
    · intro h
      split at h <;> simp_all
    · intro h
      exact absurd h (by simp)

/-- Witness for the amended C2 at mol6', whose first bond lacks the data. -/
theorem C2_amended_witness :
    mol6'.bonds =
        (⟨0, 1, true, none⟩ : Bond) ::
          [⟨1, 2, false, some 1⟩, ⟨2, 3, false, some 1⟩, ⟨3, 4, false, some 1⟩,
            ⟨4, 5, false, some 1⟩] ∧
      (_generate_fragments 10 mol6' = GenResult.cannotFragment ↔
        (⟨0, 1, true, none⟩ : Bond).wbo = none) :=
  ⟨rfl, C2_amended_first_bond_check 10 mol6' _ _ rfl⟩

/-- C9: whenever a molecule fragments successfully, the non-combinatorial
branch of generate_fragments evaluates frag_to_smiles(frag_list, charged) -
two arguments for a function with three non-defaulted parameters - and so
raises a TypeError instead of returning. -/
theorem C9_noncombinatorial_type_error (MAXR fuel : ℕ) (mol : Mol)
    (l : List (ℕ × Finset ℕ × Finset ℕ)) (h : _generate_fragments fuel mol = GenResult.frags l) :
    processMolecule false MAXR fuel mol = MolOutcome.typeErrorRaised := by
  unfold processMolecule
  rw [h]
  simp [pyCallTypeErrors, frag_to_smiles_nparams, frag_to_smiles_ndefaults]

/-- Witness for C9 at mol4, which fragments successfully. -/
theorem C9_witness :
    _generate_fragments 10 mol4 =
        GenResult.frags [(0, ({0, 1, 2}, {0, 1})), (1, ({1, 0, 2, 3}, {1, 0, 2})),
          (2, ({2, 1, 3}, {2, 1}))] ∧
      processMolecule false 2 10 mol4 = MolOutcome.typeErrorRaised :=
  ⟨rfl, C9_noncombinatorial_type_error 2 10 mol4 _ rfl⟩

/-- C7: tagging is idempotent: running tag_molecule a second time - on the
data state the first run left on the molecule - produces exactly the same
ring-system map and reconciled functional-group map, because every output of
the tagger is computed from the molecule's perceived structure alone and
never reads the data entries it writes. -/
theorem C7_tagging_idempotent (mol : Mol) (st : TagState) :
    (tag_moleculeS mol (tag_moleculeS mol st).1).2 = (tag_moleculeS mol st).2 :=
  rfl

/-- Updating a key of the functional-group dictionary leaves its key list
unchanged. -/
theorem setA_keys (m : FgMap) (k : String) (v : Finset ℕ × Finset ℕ) :
    (setA m k v).map (·.1) = m.map (·.1) := by
  induction m with
  | nil => rfl
  | cons p rest ih =>
    unfold setA at ih ⊢
    by_cases hp : p.1 = k
    · simp [hp, ih]
    · simp [hp, ih]

/-- Dictionary read over a cons cell. -/
theorem getA_cons (q : String × Finset ℕ × Finset ℕ) (rest : FgMap) (k : String) :
    getA (q :: rest) k = if q.1 = k then q.2 else getA rest k := by
  unfold getA
  by_cases h : q.1 = k
  · rw [List.find?_cons_of_pos _ (by simp [h]), if_pos h]
    rfl
  · rw [List.find?_cons_of_neg _ (by simp [h]), if_neg h]

/-- Dictionary write over a cons cell. -/
theorem setA_cons (q : String × Finset ℕ × Finset ℕ) (rest : FgMap) (k : String)
    (v : Finset ℕ × Finset ℕ) :
    setA (q :: rest) k v = (if q.1 = k then (k, v) else q) :: setA rest k v :=
  rfl

/-- Reading a just-written key returns the written value (when the key is
present in the dictionary, as every key the source writes is). -/
theorem getA_setA_same (m : FgMap) (k : String) (v : Finset ℕ × Finset ℕ)
    (hk : k ∈ m.map (·.1)) : getA (setA m k v) k = v := by
  induction m with
  | nil => simp at hk
  | cons q rest ih =>
    rw [setA_cons, getA_cons]
    by_cases hq : q.1 = k
    · simp [hq]
    · rw [if_neg (by simp [hq])]
      refine ih ?_
      simp only [List.map_cons, List.mem_cons] at hk
      exact hk.resolve_left fun h => hq h.symm

/-- Reading a different key after a write returns the old value. -/
theorem getA_setA_other (m : FgMap) (k k' : String) (v : Finset ℕ × Finset ℕ)
    (hne : k' ≠ k) : getA (setA m k v) k' = getA m k' := by
  induction m with
  | nil => rfl
  | cons q rest ih =>
    rw [setA_cons, getA_cons, getA_cons]
    by_cases hq : q.1 = k
    · rw [if_neg (by simp [hq, Ne.symm hne]), if_neg (by rw [hq]; exact Ne.symm hne)]
      exact ih
    · by_cases hq' : q.1 = k'
      · simp [hq, hq', hne]
      · simp [hq, hq', ih]

/-- C8: reconciliation leaves the ring-system map unchanged - the ring map
tag_molecule returns is exactly the one _tag_rings produced, _ring_fgroup_union
writing only the functional-group map - and when the overlap pass merges two
groups, both names alias the identical unioned atom/bond sets. -/
theorem C8_reconciliation_frame (mol : Mol) (st : TagState) (m : FgMap) (g1 g2 : String)
    (h1 : g1 ∈ m.map (·.1)) (h2 : g2 ∈ m.map (·.1))
    (hmerge : 1 < ((getA m g1).1 ∩ (getA m g2).1).card) :
    (tag_moleculeS mol st).2.1 = (_tag_ringsS mol (_tag_fgroupsS mol st).1).2 ∧
      getA (fgMergeStep m (g1, g2)) g1 = getA (fgMergeStep m (g1, g2)) g2 := by
  refine ⟨rfl, ?_⟩
  unfold fgMergeStep
  rw [if_pos hmerge]
  by_cases hg : g1 = g2
  · rw [hg]
  · rw [getA_setA_other _ _ _ _ hg, getA_setA_same m g1 _ h1,
      getA_setA_same _ _ _ (by rw [setA_keys]; exact h2)]

/-- Witness for C8 at a two-group dictionary with a two-atom overlap. -/
theorem C8_reconciliation_frame_witness :
    "amide_0" ∈ ([("amide_0", ({0, 1, 2} : Finset ℕ), ({0, 1} : Finset ℕ)),
        ("ester_0", ({1, 2, 3} : Finset ℕ), ({2} : Finset ℕ))] : FgMap).map (·.1) ∧
      (tag_moleculeS mol3 initTags).2.1 = (_tag_ringsS mol3 (_tag_fgroupsS mol3 initTags).1).2 ∧
      getA (fgMergeStep [("amide_0", ({0, 1, 2} : Finset ℕ), ({0, 1} : Finset ℕ)),
          ("ester_0", ({1, 2, 3} : Finset ℕ), ({2} : Finset ℕ))] ("amide_0", "ester_0")) "amide_0" =
        getA (fgMergeStep [("amide_0", ({0, 1, 2} : Finset ℕ), ({0, 1} : Finset ℕ)),
          ("ester_0", ({1, 2, 3} : Finset ℕ), ({2} : Finset ℕ))] ("amide_0", "ester_0")) "ester_0" := by
  refine ⟨by simp, ?_, ?_⟩
  all_goals {
    have h := C8_reconciliation_frame mol3 initTags
      [("amide_0", ({0, 1, 2} : Finset ℕ), ({0, 1} : Finset ℕ)),
        ("ester_0", ({1, 2, 3} : Finset ℕ), ({2} : Finset ℕ))] "amide_0" "ester_0"
      (by simp) (by simp) (by decide)
    first
    | exact h.1
    | exact h.2
  }

end Fragmenter
